import Mathlib

/-!
Verification development for the arxiv_daily ingestion pipeline.

The JavaScript sources are shallowly embedded: pure string transformations
become Lean functions on `List Char` / `String`, fallible operations return
`Option` (with `none` standing for a thrown exception), and external effects
(HTTP fetches, completion-service calls, filesystem writes) are passed in as
explicit oracle arguments or recorded in effect traces.
-/

set_option maxRecDepth 8000

namespace ArxivDaily

/-! ## JavaScript string primitives shared by the scripts -/

/-- Whitespace recognised by String.prototype.trim, restricted to the ASCII
forms that can occur in the inputs handled here. -/
def jsWs (c : Char) : Bool :=
  c = ' ' || c = '\t' || c = '\n' || c = '\r' || c = '\x0b' || c = '\x0c'

/-- Model of String.prototype.trim. -/
def jsTrim (cs : List Char) : List Char :=
  ((cs.dropWhile jsWs).reverse.dropWhile jsWs).reverse

/-- ASCII lower-casing, as performed by a case-insensitive regex flag on the
ASCII patterns used in arxiv.js. -/
def lowerAscii (c : Char) : Char :=
  if 'A' ≤ c ∧ c ≤ 'Z' then Char.ofNat (c.toNat + 32) else c

namespace ArxivJs

/-! ## scripts/arxiv.js

`NEW_ID_RE = /^(\d{4}\.\d{4,5})(?:v\d+)?$/i` and
`ARXIV_URL_RE = /arxiv\.org\/(abs|pdf|html)\/([^?#]+)/i`. -/

/-- The remainder after the captured id must be empty or a version suffix:
the `(?:v\d+)?$` tail of NEW_ID_RE (case-insensitive `v`). -/
def versionEnd (cs : List Char) : Bool :=
  match cs with
  | [] => true
  | c :: rest => (c = 'v' || c = 'V') && (!rest.isEmpty) && rest.all Char.isDigit

/-- Model of matching NEW_ID_RE against a whole string: on success returns
capture group 1, the unversioned `dddd.dddd(d)` core.  The greedy `\d{4,5}`
with backtracking is equivalent to taking the maximal digit run and checking
its length is 4 or 5, because a longer run leaves a leading digit that can
match neither the version suffix nor the end anchor. -/
def matchNewId (cs : List Char) : Option (List Char) :=
  let a := cs.takeWhile Char.isDigit
  let r1 := cs.dropWhile Char.isDigit
  if a.length = 4 then
    match r1 with
    | '.' :: r2 =>
      let b := r2.takeWhile Char.isDigit
      let r3 := r2.dropWhile Char.isDigit
      if (b.length = 4 ∨ b.length = 5) ∧ versionEnd r3 then
        some (a ++ '.' :: b)
      else none
    | _ => none
  else none

/-- Case-insensitive literal match: the pattern is given in lower case and
compared against the input mapped through `lowerAscii`; returns the remainder
of the input on success. -/
def dropLitCi : List Char → List Char → Option (List Char)
  | [], cs => some cs
  | _ :: _, [] => none
  | p :: ps, c :: cs => if lowerAscii c = p then dropLitCi ps cs else none

/-- Attempt to match ARXIV_URL_RE at the head of the input; on success
returns capture group 2, the maximal nonempty run of characters other than
`?` and `#` after one of the three recognised route segments. -/
def urlSegAt (cs : List Char) : Option (List Char) :=
  match dropLitCi "arxiv.org/".toList cs with
  | none => none
  | some r1 =>
    let r2opt :=
      match dropLitCi "abs/".toList r1 with
      | some r => some r
      | none =>
        match dropLitCi "pdf/".toList r1 with
        | some r => some r
        | none => dropLitCi "html/".toList r1
    match r2opt with
    | none => none
    | some r2 =>
      let seg := r2.takeWhile (fun c => c ≠ '?' && c ≠ '#')
      if seg.isEmpty then none else some seg

/-- Unanchored regex search for ARXIV_URL_RE, as performed by
String.prototype.match: try each start position from the left. -/
def findUrlSeg : List Char → Option (List Char)
  | [] => none
  | c :: cs =>
    match urlSegAt (c :: cs) with
    | some seg => some seg
    | none => findUrlSeg cs

/-- Model of `replace(/\.pdf$/i, "")`. -/
def stripPdfExt (cs : List Char) : List Char :=
  if 4 ≤ cs.length ∧ (cs.drop (cs.length - 4)).map lowerAscii = ".pdf".toList then
    cs.take (cs.length - 4)
  else cs

/-- Model of `replace(/\/$/, "")`. -/
def stripSlashEnd (cs : List Char) : List Char :=
  if cs.getLast? = some '/' then cs.dropLast else cs

/-- Value of an ASCII hex digit. -/
def hexVal (c : Char) : Option Nat :=
  if '0' ≤ c ∧ c ≤ '9' then some (c.toNat - '0'.toNat)
  else if 'a' ≤ c ∧ c ≤ 'f' then some (c.toNat - 'a'.toNat + 10)
  else if 'A' ≤ c ∧ c ≤ 'F' then some (c.toNat - 'A'.toNat + 10)
  else none

/-- A UTF-8 continuation byte. -/
def contByte (b : Nat) : Bool := 0x80 ≤ b && b ≤ 0xBF

/-- Byte value of an escape `%h₁h₂`. -/
def pctByte (h1 h2 : Char) : Option Nat :=
  match hexVal h1, hexVal h2 with
  | some v1, some v2 => some (16 * v1 + v2)
  | _, _ => none

/-- Parse one percent-escape sequence, given the characters that follow an
initial `%`: the first escaped byte determines the UTF-8 sequence length,
continuation bytes must be further consecutive escapes, and overlong forms
and surrogate code points are rejected (strict UTF-8, as in the ECMA-262
Decode operation).  Returns the decoded character and the rest of the
input; `none` means the Decode operation throws a URIError. -/
def pctSeq (r : List Char) : Option (Char × List Char) :=
  match r with
  | h1 :: h2 :: r2 =>
    match pctByte h1 h2 with
    | none => none
    | some b =>
      if b < 0x80 then some (Char.ofNat b, r2)
      else if 0xC2 ≤ b ∧ b ≤ 0xDF then
        match r2 with
        | '%' :: g1 :: g2 :: r3 =>
          match pctByte g1 g2 with
          | some b1 =>
            if contByte b1 then
              some (Char.ofNat ((b - 0xC0) * 64 + (b1 - 0x80)), r3)
            else none
          | none => none
        | _ => none
      else if 0xE0 ≤ b ∧ b ≤ 0xEF then
        match r2 with
        | '%' :: g1 :: g2 :: '%' :: g3 :: g4 :: r3 =>
          match pctByte g1 g2, pctByte g3 g4 with
          | some b1, some b2 =>
            if (if b = 0xE0 then 0xA0 ≤ b1 && b1 ≤ 0xBF
                else if b = 0xED then 0x80 ≤ b1 && b1 ≤ 0x9F
                else contByte b1) && contByte b2 then
              some (Char.ofNat ((b - 0xE0) * 4096 + (b1 - 0x80) * 64 + (b2 - 0x80)), r3)
            else none
          | _, _ => none
        | _ => none
      else if 0xF0 ≤ b ∧ b ≤ 0xF4 then
        match r2 with
        | '%' :: g1 :: g2 :: '%' :: g3 :: g4 :: '%' :: g5 :: g6 :: r3 =>
          match pctByte g1 g2, pctByte g3 g4, pctByte g5 g6 with
          | some b1, some b2, some b3 =>
            if (if b = 0xF0 then 0x90 ≤ b1 && b1 ≤ 0xBF
                else if b = 0xF4 then 0x80 ≤ b1 && b1 ≤ 0x8F
                else contByte b1) && contByte b2 && contByte b3 then
              some (Char.ofNat ((b - 0xF0) * 262144 + (b1 - 0x80) * 4096 +
                (b2 - 0x80) * 64 + (b3 - 0x80)), r3)
            else none
          | _, _, _ => none
        | _ => none
      else none
  | _ => none

/-- Decoding loop, with an explicit step counter so that the recursion is
structural (and hence kernel-evaluable).  Every step consumes at least one
input character, so a counter equal to the input length never runs out; see
`decodeLoop_congr`. -/
def decodeLoop : Nat → List Char → Option (List Char)
  | _, [] => some []
  | 0, _ :: _ => none
  | fuel + 1, c :: r =>
    if c = '%' then
      match pctSeq r with
      | none => none
      | some p => (decodeLoop fuel p.2).map (fun t => p.1 :: t)
    else
      (decodeLoop fuel r).map (fun t => c :: t)

/-- Model of the ECMA-262 Decode operation underlying decodeURIComponent:
percent escapes are decoded as strict UTF-8 byte sequences; a malformed
escape or invalid sequence throws a URIError, modelled as `none`; every
other character passes through unchanged. -/
def jsDecodeUriComp (cs : List Char) : Option (List Char) :=
  decodeLoop cs.length cs

/-- Embedding of normalizeArxivId (scripts/arxiv.js lines 9-25).
`none` models a thrown exception (the URIError escaping from
decodeURIComponent); `some s` models a normal return of the string `s`,
with `some ""` being the failure value for unrecognised inputs. -/
def normalizeArxivId (input : String) : Option String :=
  if input = "" then some ""
  else
    let value := jsTrim input.toList
    match matchNewId value with
    | some id => some (String.mk id)
    | none =>
      match findUrlSeg value with
      | none => some ""
      | some seg =>
        let raw := stripSlashEnd (stripPdfExt seg)
        match jsDecodeUriComp raw with
        | none => none
        | some raw2 =>
          match matchNewId raw2 with
          | some id => some (String.mk id)
          | none => some ""

end ArxivJs

/-! ## List and character lemmas used by the normalizer proofs -/

theorem takeWhile_append_all {α} (p : α → Bool) (xs ys : List α)
    (h : ∀ a ∈ xs, p a = true) :
    (xs ++ ys).takeWhile p = xs ++ ys.takeWhile p := by
  induction xs with
  | nil => simp
  | cons x xs ih =>
    have hx : p x = true := h x (by simp)
    simp only [List.cons_append, List.takeWhile_cons, hx, if_true]
    rw [ih (fun a ha => h a (by simp [ha]))]

theorem dropWhile_append_all {α} (p : α → Bool) (xs ys : List α)
    (h : ∀ a ∈ xs, p a = true) :
    (xs ++ ys).dropWhile p = ys.dropWhile p := by
  induction xs with
  | nil => simp
  | cons x xs ih =>
    have hx : p x = true := h x (by simp)
    simp only [List.cons_append, List.dropWhile_cons, hx, if_true]
    exact ih (fun a ha => h a (by simp [ha]))

theorem takeWhile_all {α} (p : α → Bool) (xs : List α)
    (h : ∀ a ∈ xs, p a = true) : xs.takeWhile p = xs := by
  have := takeWhile_append_all p xs [] h
  simpa using this

theorem dropWhile_all_neg {α} (p : α → Bool) (xs : List α)
    (h : ∀ a ∈ xs, p a = false) : xs.dropWhile p = xs := by
  induction xs with
  | nil => simp
  | cons x xs ih =>
    have hx : p x = false := h x (by simp)
    simp only [List.dropWhile_cons, hx]
    simp

theorem jsTrim_eq_self (cs : List Char) (h : ∀ c ∈ cs, jsWs c = false) :
    jsTrim cs = cs := by
  unfold jsTrim
  rw [dropWhile_all_neg _ _ h,
      dropWhile_all_neg _ _ (fun c hc => h c (List.mem_reverse.mp hc)),
      List.reverse_reverse]

theorem ne_of_isDigit_of_not (c d : Char) (h : Char.isDigit c = true)
    (hd : Char.isDigit d = false) : c ≠ d := by
  intro he
  rw [he, hd] at h
  exact Bool.noConfusion h

theorem lowerAscii_of_isDigit (c : Char) (h : Char.isDigit c = true) :
    lowerAscii c = c := by
  unfold lowerAscii
  split
  · next hc =>
    exfalso
    have h57 : c.val ≤ 57 := by
      unfold Char.isDigit at h
      rw [Bool.and_eq_true] at h
      exact of_decide_eq_true h.2
    have hA : ('A' : Char).val ≤ c.val := Char.le_def.mp hc.1
    exact absurd (UInt32.le_trans hA h57) (by decide)
  · rfl

/-- Characters appearing in a recognised identifier: decimal digits, the
dot, and the version letter. -/
def idCharOk (c : Char) : Prop :=
  Char.isDigit c = true ∨ c = '.' ∨ c = 'v' ∨ c = 'V'

theorem idCharOk_facts (c : Char) (h : idCharOk c) :
    (c ≠ '?' && c ≠ '#') = true ∧ jsWs c = false ∧ c ≠ '%' ∧ c ≠ '/' ∧
      lowerAscii c ≠ 'f' := by
  rcases h with h | h | h | h
  · refine ⟨?_, ?_, ?_, ?_, ?_⟩
    · simp [ne_of_isDigit_of_not c '?' h (by decide),
            ne_of_isDigit_of_not c '#' h (by decide)]
    · simp [jsWs, ne_of_isDigit_of_not c ' ' h (by decide),
            ne_of_isDigit_of_not c '\t' h (by decide),
            ne_of_isDigit_of_not c '\n' h (by decide),
            ne_of_isDigit_of_not c '\r' h (by decide),
            ne_of_isDigit_of_not c '\x0b' h (by decide),
            ne_of_isDigit_of_not c '\x0c' h (by decide)]
    · exact ne_of_isDigit_of_not c '%' h (by decide)
    · exact ne_of_isDigit_of_not c '/' h (by decide)
    · rw [lowerAscii_of_isDigit c h]
      exact ne_of_isDigit_of_not c 'f' h (by decide)
  all_goals subst h
  all_goals exact ⟨by decide, by decide, by decide, by decide, by decide⟩

namespace ArxivJs

theorem versionEnd_head_not_digit (ver : List Char) (hv : versionEnd ver = true) :
    ∀ c cs, ver = c :: cs → Char.isDigit c = false := by
  intro c cs he
  subst he
  unfold versionEnd at hv
  rw [Bool.and_eq_true, Bool.and_eq_true] at hv
  rcases hv with ⟨⟨hcv, _⟩, _⟩
  rw [Bool.or_eq_true] at hcv
  rcases hcv with h | h
  · rw [of_decide_eq_true h]; decide
  · rw [of_decide_eq_true h]; decide

theorem matchNewId_of_shape (a b ver : List Char)
    (ha : ∀ c ∈ a, Char.isDigit c = true) (ha4 : a.length = 4)
    (hb : ∀ c ∈ b, Char.isDigit c = true) (hb45 : b.length = 4 ∨ b.length = 5)
    (hv : versionEnd ver = true) :
    matchNewId (a ++ '.' :: (b ++ ver)) = some (a ++ '.' :: b) := by
  have hverTake : ver.takeWhile Char.isDigit = ver.takeWhile Char.isDigit := rfl
  have hvt : ver.takeWhile Char.isDigit = [] := by
    cases ver with
    | nil => rfl
    | cons c cs =>
      have := versionEnd_head_not_digit (c :: cs) hv c cs rfl
      simp [List.takeWhile_cons, this]
  have hvd : ver.dropWhile Char.isDigit = ver := by
    cases ver with
    | nil => rfl
    | cons c cs =>
      have := versionEnd_head_not_digit (c :: cs) hv c cs rfl
      simp [List.dropWhile_cons, this]
  unfold matchNewId
  rw [takeWhile_append_all _ a _ ha, dropWhile_append_all _ a _ ha]
  have hdot : (('.' :: (b ++ ver)).takeWhile Char.isDigit) = [] := by
    simp [List.takeWhile_cons]
  have hdot2 : (('.' :: (b ++ ver)).dropWhile Char.isDigit) = '.' :: (b ++ ver) := by
    simp [List.dropWhile_cons]
  rw [hdot, hdot2, List.append_nil]
  simp only [ha4, if_true, reduceIte]
  rw [takeWhile_append_all _ b _ hb, dropWhile_append_all _ b _ hb, hvt, hvd,
    List.append_nil]
  simp [hb45, hv]

theorem matchNewId_none_of_head (c : Char) (cs : List Char)
    (h : Char.isDigit c = false) : matchNewId (c :: cs) = none := by
  unfold matchNewId
  simp [List.takeWhile_cons, h]

theorem dropLitCi_append (ps xs ys : List Char) (hm : xs.map lowerAscii = ps) :
    dropLitCi ps (xs ++ ys) = some ys := by
  induction ps generalizing xs with
  | nil =>
    have : xs = [] := by
      cases xs with
      | nil => rfl
      | cons x t => simp at hm
    subst this; rfl
  | cons p ps ih =>
    cases xs with
    | nil => simp at hm
    | cons x t =>
      simp only [List.map_cons, List.cons.injEq] at hm
      simp only [List.cons_append, dropLitCi, hm.1, if_true, reduceIte]
      exact ih t hm.2

theorem dropLitCi_none_head (p c : Char) (ps cs : List Char)
    (h : lowerAscii c ≠ p) : dropLitCi (p :: ps) (c :: cs) = none := by
  simp [dropLitCi, h]

theorem urlSegAt_none_of_ne_a (c : Char) (cs : List Char)
    (h : lowerAscii c ≠ 'a') : urlSegAt (c :: cs) = none := by
  unfold urlSegAt
  rw [show ("arxiv.org/".toList) = 'a' :: "rxiv.org/".toList from rfl]
  rw [dropLitCi_none_head _ _ _ _ h]

theorem findUrlSeg_cons_none (c : Char) (cs : List Char)
    (h : urlSegAt (c :: cs) = none) : findUrlSeg (c :: cs) = findUrlSeg cs := by
  rw [findUrlSeg, h]

theorem findUrlSeg_cons_some (c : Char) (cs seg : List Char)
    (h : urlSegAt (c :: cs) = some seg) : findUrlSeg (c :: cs) = some seg := by
  rw [findUrlSeg, h]

theorem findUrlSeg_https (tail : List Char) :
    findUrlSeg ("https://".toList ++ tail) = findUrlSeg tail := by
  rw [show ("https://".toList ++ tail) =
      'h' :: 't' :: 't' :: 'p' :: 's' :: ':' :: '/' :: '/' :: tail from rfl]
  rw [findUrlSeg_cons_none _ _ (urlSegAt_none_of_ne_a _ _ (by decide))]
  rw [findUrlSeg_cons_none _ _ (urlSegAt_none_of_ne_a _ _ (by decide))]
  rw [findUrlSeg_cons_none _ _ (urlSegAt_none_of_ne_a _ _ (by decide))]
  rw [findUrlSeg_cons_none _ _ (urlSegAt_none_of_ne_a _ _ (by decide))]
  rw [findUrlSeg_cons_none _ _ (urlSegAt_none_of_ne_a _ _ (by decide))]
  rw [findUrlSeg_cons_none _ _ (urlSegAt_none_of_ne_a _ _ (by decide))]
  rw [findUrlSeg_cons_none _ _ (urlSegAt_none_of_ne_a _ _ (by decide))]
  rw [findUrlSeg_cons_none _ _ (urlSegAt_none_of_ne_a _ _ (by decide))]

theorem urlSegAt_abs (id : List Char) (hne : id ≠ [])
    (hqh : ∀ c ∈ id, (c ≠ '?' && c ≠ '#') = true) :
    urlSegAt ("arxiv.org/".toList ++ ("abs/".toList ++ id)) = some id := by
  unfold urlSegAt
  rw [dropLitCi_append "arxiv.org/".toList "arxiv.org/".toList _ (by decide)]
  simp only
  rw [dropLitCi_append "abs/".toList "abs/".toList id (by decide)]
  simp only
  rw [takeWhile_all _ id hqh]
  simp [hne]

theorem urlSegAt_pdf (id : List Char) (hne : id ≠ [])
    (hqh : ∀ c ∈ id, (c ≠ '?' && c ≠ '#') = true) :
    urlSegAt ("arxiv.org/".toList ++ ("pdf/".toList ++ id)) = some id := by
  unfold urlSegAt
  rw [dropLitCi_append "arxiv.org/".toList "arxiv.org/".toList _ (by decide)]
  simp only
  rw [show dropLitCi "abs/".toList ("pdf/".toList ++ id) = none from
        dropLitCi_none_head 'a' 'p' _ _ (by decide)]
  rw [dropLitCi_append "pdf/".toList "pdf/".toList id (by decide)]
  simp only
  rw [takeWhile_all _ id hqh]
  simp [hne]

theorem urlSegAt_html (id : List Char) (hne : id ≠ [])
    (hqh : ∀ c ∈ id, (c ≠ '?' && c ≠ '#') = true) :
    urlSegAt ("arxiv.org/".toList ++ ("html/".toList ++ id)) = some id := by
  unfold urlSegAt
  rw [dropLitCi_append "arxiv.org/".toList "arxiv.org/".toList _ (by decide)]
  simp only
  rw [show dropLitCi "abs/".toList ("html/".toList ++ id) = none from
        dropLitCi_none_head 'a' 'h' _ _ (by decide)]
  rw [show dropLitCi "pdf/".toList ("html/".toList ++ id) = none from
        dropLitCi_none_head 'p' 'h' _ _ (by decide)]
  rw [dropLitCi_append "html/".toList "html/".toList id (by decide)]
  simp only
  rw [takeWhile_all _ id hqh]
  simp [hne]

theorem stripPdfExt_eq_self (cs : List Char)
    (h : ∀ c ∈ cs, lowerAscii c ≠ 'f') : stripPdfExt cs = cs := by
  unfold stripPdfExt
  split
  · next hcond =>
    exfalso
    have hf : 'f' ∈ (cs.drop (cs.length - 4)).map lowerAscii := by
      rw [hcond.2]; decide
    rcases List.mem_map.mp hf with ⟨c, hc, hlc⟩
    exact h c (List.mem_of_mem_drop hc) hlc
  · rfl

theorem stripPdfExt_append (id : List Char) :
    stripPdfExt (id ++ ".pdf".toList) = id := by
  unfold stripPdfExt
  have hlen : (id ++ ".pdf".toList).length = id.length + 4 := by simp
  have h1 : (id ++ ".pdf".toList).length - 4 = id.length := by omega
  rw [h1]
  have hdrop : (id ++ ".pdf".toList).drop id.length = ".pdf".toList :=
    List.drop_left id _
  have htake : (id ++ ".pdf".toList).take id.length = id :=
    List.take_left id _
  rw [hdrop, htake]
  simp [hlen]
  exact ⟨by decide, by decide, by decide, by decide⟩

theorem stripSlashEnd_eq_self (cs : List Char) (h : ∀ c ∈ cs, c ≠ '/') :
    stripSlashEnd cs = cs := by
  unfold stripSlashEnd
  split
  · next hl =>
    exfalso
    rw [List.getLast?_eq_getElem?] at hl
    exact h '/' (List.getElem?_mem hl) rfl
  · rfl

theorem pctSeq_length (r : List Char) (p : Char × List Char)
    (h : pctSeq r = some p) : p.2.length < r.length + 1 := by
  unfold pctSeq at h
  repeat' split at h
  all_goals (cases h)
  all_goals (simp only [List.length_cons, Prod.snd]; omega)

theorem decodeLoop_congr (f : Nat) : ∀ (g : Nat) (cs : List Char),
    cs.length ≤ f → cs.length ≤ g → decodeLoop f cs = decodeLoop g cs := by
  induction f with
  | zero =>
    intro g cs hf _
    have : cs = [] := List.length_eq_zero.mp (Nat.le_zero.mp hf)
    subst this
    cases g <;> rfl
  | succ f ih =>
    intro g cs hf hg
    cases cs with
    | nil => cases g <;> rfl
    | cons c r =>
      cases g with
      | zero => simp at hg
      | succ g =>
        simp only [List.length_cons, Nat.add_le_add_iff_right] at hf hg
        by_cases hc : c = '%'
        · rcases hp : pctSeq r with _ | p
          · simp [decodeLoop, hc, hp]
          · have hlen := pctSeq_length r p hp
            simp only [decodeLoop, hc, hp, if_true, reduceIte]
            rw [ih g p.2 (by omega) (by omega)]
        · simp only [decodeLoop, hc, if_false, reduceIte]
          rw [ih g r hf hg]

theorem decodeLoop_eq_self (fuel : Nat) : ∀ (cs : List Char),
    cs.length ≤ fuel → (∀ c ∈ cs, c ≠ '%') → decodeLoop fuel cs = some cs := by
  induction fuel with
  | zero =>
    intro cs hf _
    have : cs = [] := List.length_eq_zero.mp (Nat.le_zero.mp hf)
    subst this
    rfl
  | succ fuel ih =>
    intro cs hf h
    cases cs with
    | nil => rfl
    | cons c r =>
      have hc : ¬(c = '%') := h c (by simp)
      simp only [List.length_cons, Nat.add_le_add_iff_right] at hf
      simp only [decodeLoop, hc, if_false, reduceIte]
      rw [ih r hf (fun x hx => h x (by simp [hx]))]
      rfl

theorem jsDecodeUriComp_eq_self (cs : List Char) (h : ∀ c ∈ cs, c ≠ '%') :
    jsDecodeUriComp cs = some cs :=
  decodeLoop_eq_self cs.length cs le_rfl h

theorem idChars_of_shape (a b ver : List Char)
    (ha : ∀ c ∈ a, Char.isDigit c = true)
    (hb : ∀ c ∈ b, Char.isDigit c = true)
    (hv : versionEnd ver = true) :
    ∀ c ∈ a ++ '.' :: (b ++ ver), idCharOk c := by
  intro c hc
  rcases List.mem_append.mp hc with h | h
  · exact Or.inl (ha c h)
  · rcases List.mem_cons.mp h with h | h
    · exact Or.inr (Or.inl h)
    · rcases List.mem_append.mp h with h | h
      · exact Or.inl (hb c h)
      · cases ver with
        | nil => cases h
        | cons v vs =>
          unfold versionEnd at hv
          rw [Bool.and_eq_true, Bool.and_eq_true] at hv
          rcases hv with ⟨⟨hcv, _⟩, hall⟩
          rcases List.mem_cons.mp h with h | h
          · subst h
            rw [Bool.or_eq_true] at hcv
            rcases hcv with hx | hx
            · exact Or.inr (Or.inr (Or.inl (of_decide_eq_true hx)))
            · exact Or.inr (Or.inr (Or.inr (of_decide_eq_true hx)))
          · exact Or.inl (List.all_eq_true.mp hall c h)

theorem mkne (x : Char) (xs : List Char) : ¬(String.mk (x :: xs) = "") := by
  intro h0
  cases congrArg String.data h0

theorem all_mem_false {α} (p : α → Bool) (l : List α)
    (h : l.all (fun x => !p x) = true) : ∀ c ∈ l, p c = false := by
  intro c hc
  have := List.all_eq_true.mp h c hc
  simpa using this

theorem normalizeArxivId_direct (input : String) (hne : ¬(input = ""))
    (id : List Char) (hm : matchNewId (jsTrim input.toList) = some id) :
    normalizeArxivId input = some (String.mk id) := by
  unfold normalizeArxivId
  rw [if_neg hne]
  simp only [hm]

theorem normalizeArxivId_url_some (input : String) (hne : ¬(input = ""))
    (seg raw2 id : List Char)
    (hm : matchNewId (jsTrim input.toList) = none)
    (hf : findUrlSeg (jsTrim input.toList) = some seg)
    (hd : jsDecodeUriComp (stripSlashEnd (stripPdfExt seg)) = some raw2)
    (hm2 : matchNewId raw2 = some id) :
    normalizeArxivId input = some (String.mk id) := by
  unfold normalizeArxivId
  rw [if_neg hne]
  simp only [hm, hf, hd, hm2]

theorem normalizeArxivId_url_nomatch (input : String) (hne : ¬(input = ""))
    (seg raw2 : List Char)
    (hm : matchNewId (jsTrim input.toList) = none)
    (hf : findUrlSeg (jsTrim input.toList) = some seg)
    (hd : jsDecodeUriComp (stripSlashEnd (stripPdfExt seg)) = some raw2)
    (hm2 : matchNewId raw2 = none) :
    normalizeArxivId input = some "" := by
  unfold normalizeArxivId
  rw [if_neg hne]
  simp only [hm, hf, hd, hm2]

theorem normalizeArxivId_nourl (input : String) (hne : ¬(input = ""))
    (hm : matchNewId (jsTrim input.toList) = none)
    (hf : findUrlSeg (jsTrim input.toList) = none) :
    normalizeArxivId input = some "" := by
  unfold normalizeArxivId
  rw [if_neg hne]
  simp only [hm, hf]

theorem normalizeArxivId_throw (input : String) (hne : ¬(input = ""))
    (seg : List Char)
    (hm : matchNewId (jsTrim input.toList) = none)
    (hf : findUrlSeg (jsTrim input.toList) = some seg)
    (hd : jsDecodeUriComp (stripSlashEnd (stripPdfExt seg)) = none) :
    normalizeArxivId input = none := by
  unfold normalizeArxivId
  rw [if_neg hne]
  simp only [hm, hf, hd]

theorem normalizeArxivId_eq (input : String) (hne : ¬(input = "")) :
    normalizeArxivId input =
      match matchNewId (jsTrim input.toList) with
      | some id => some (String.mk id)
      | none =>
        match findUrlSeg (jsTrim input.toList) with
        | none => some ""
        | some seg =>
          match jsDecodeUriComp (stripSlashEnd (stripPdfExt seg)) with
          | none => none
          | some raw2 =>
            match matchNewId raw2 with
            | some id => some (String.mk id)
            | none => some "" := by
  unfold normalizeArxivId
  rw [if_neg hne]

/-- C8: for every identifier of the recognised shape (four digits, dot,
four-to-five digits, with or without a version suffix), presenting it as a
bare string, an abstract URL, a PDF URL, or an HTML-rendering URL yields the
same canonical unversioned value from normalizeArxivId. -/
theorem c8_normalizer_uniform_across_forms (a b ver : List Char)
    (ha : ∀ c ∈ a, Char.isDigit c = true) (ha4 : a.length = 4)
    (hb : ∀ c ∈ b, Char.isDigit c = true) (hb45 : b.length = 4 ∨ b.length = 5)
    (hv : versionEnd ver = true) :
    normalizeArxivId (String.mk (a ++ '.' :: (b ++ ver))) =
        some (String.mk (a ++ '.' :: b)) ∧
    normalizeArxivId
        (String.mk ("https://arxiv.org/abs/".toList ++ (a ++ '.' :: (b ++ ver)))) =
        some (String.mk (a ++ '.' :: b)) ∧
    normalizeArxivId
        (String.mk ("https://arxiv.org/pdf/".toList ++
          ((a ++ '.' :: (b ++ ver)) ++ ".pdf".toList))) =
        some (String.mk (a ++ '.' :: b)) ∧
    normalizeArxivId
        (String.mk ("https://arxiv.org/html/".toList ++ (a ++ '.' :: (b ++ ver)))) =
        some (String.mk (a ++ '.' :: b)) := by
  have hid : ∀ c ∈ a ++ '.' :: (b ++ ver), idCharOk c :=
    idChars_of_shape a b ver ha hb hv
  have hws : ∀ c ∈ a ++ '.' :: (b ++ ver), jsWs c = false :=
    fun c hc => (idCharOk_facts c (hid c hc)).2.1
  have hqh : ∀ c ∈ a ++ '.' :: (b ++ ver), (c ≠ '?' && c ≠ '#') = true :=
    fun c hc => (idCharOk_facts c (hid c hc)).1
  have hpc : ∀ c ∈ a ++ '.' :: (b ++ ver), c ≠ '%' :=
    fun c hc => (idCharOk_facts c (hid c hc)).2.2.1
  have hsl : ∀ c ∈ a ++ '.' :: (b ++ ver), c ≠ '/' :=
    fun c hc => (idCharOk_facts c (hid c hc)).2.2.2.1
  have hlf : ∀ c ∈ a ++ '.' :: (b ++ ver), lowerAscii c ≠ 'f' :=
    fun c hc => (idCharOk_facts c (hid c hc)).2.2.2.2
  have hne : a ++ '.' :: (b ++ ver) ≠ [] := by
    intro h0
    have h1 := congrArg List.length h0
    simp [ha4] at h1
  have hmid : matchNewId (a ++ '.' :: (b ++ ver)) = some (a ++ '.' :: b) :=
    matchNewId_of_shape a b ver ha ha4 hb hb45 hv
  have hdec : jsDecodeUriComp (stripSlashEnd (stripPdfExt (a ++ '.' :: (b ++ ver))))
      = some (a ++ '.' :: (b ++ ver)) := by
    rw [stripPdfExt_eq_self _ hlf, stripSlashEnd_eq_self _ hsl]
    exact jsDecodeUriComp_eq_self _ hpc
  refine ⟨?_, ?_, ?_, ?_⟩
  · have hne0 : ¬(String.mk (a ++ '.' :: (b ++ ver)) = "") := by
      intro h0
      exact hne (congrArg String.data h0)
    have htr : jsTrim (String.mk (a ++ '.' :: (b ++ ver))).toList
        = a ++ '.' :: (b ++ ver) := jsTrim_eq_self _ hws
    exact normalizeArxivId_direct _ hne0 _ (by rw [htr]; exact hmid)
  · have hwsU : ∀ c ∈ "https://arxiv.org/abs/".toList ++ (a ++ '.' :: (b ++ ver)),
        jsWs c = false := by
      intro c hc
      rcases List.mem_append.mp hc with h | h
      · exact all_mem_false jsWs _ (by decide) c h
      · exact hws c h
    have htr : jsTrim (String.mk
          ("https://arxiv.org/abs/".toList ++ (a ++ '.' :: (b ++ ver)))).toList
        = "https://arxiv.org/abs/".toList ++ (a ++ '.' :: (b ++ ver)) :=
      jsTrim_eq_self _ hwsU
    have hm0 : matchNewId ("https://arxiv.org/abs/".toList ++ (a ++ '.' :: (b ++ ver)))
        = none := matchNewId_none_of_head 'h' _ (by decide)
    have hfind : findUrlSeg ("https://arxiv.org/abs/".toList ++ (a ++ '.' :: (b ++ ver)))
        = some (a ++ '.' :: (b ++ ver)) :=
      (findUrlSeg_https ("arxiv.org/abs/".toList ++ (a ++ '.' :: (b ++ ver)))).trans
        (findUrlSeg_cons_some 'a' _ _ (urlSegAt_abs _ hne hqh))
    exact normalizeArxivId_url_some
      (String.mk ("https://arxiv.org/abs/".toList ++ (a ++ '.' :: (b ++ ver))))
      (mkne 'h' _) _ _ _
      (by rw [htr]; exact hm0) (by rw [htr]; exact hfind) hdec hmid
  · have hqhP : ∀ c ∈ (a ++ '.' :: (b ++ ver)) ++ ".pdf".toList,
        (c ≠ '?' && c ≠ '#') = true := by
      intro c hc
      rcases List.mem_append.mp hc with h | h
      · exact hqh c h
      · have hp : ∀ x ∈ ".pdf".toList, (x ≠ '?' && x ≠ '#') = true := by decide
        exact hp c h
    have hwsU : ∀ c ∈ "https://arxiv.org/pdf/".toList ++
        ((a ++ '.' :: (b ++ ver)) ++ ".pdf".toList), jsWs c = false := by
      intro c hc
      rcases List.mem_append.mp hc with h | h
      · exact all_mem_false jsWs _ (by decide) c h
      · rcases List.mem_append.mp h with h | h
        · exact hws c h
        · exact all_mem_false jsWs _ (by decide) c h
    have htr : jsTrim (String.mk ("https://arxiv.org/pdf/".toList ++
          ((a ++ '.' :: (b ++ ver)) ++ ".pdf".toList))).toList
        = "https://arxiv.org/pdf/".toList ++ ((a ++ '.' :: (b ++ ver)) ++ ".pdf".toList) :=
      jsTrim_eq_self _ hwsU
    have hm0 : matchNewId ("https://arxiv.org/pdf/".toList ++
        ((a ++ '.' :: (b ++ ver)) ++ ".pdf".toList)) = none :=
      matchNewId_none_of_head 'h' _ (by decide)
    have hneP : (a ++ '.' :: (b ++ ver)) ++ ".pdf".toList ≠ [] := by
      intro h0
      have h1 := congrArg List.length h0
      simp [ha4] at h1
    have hfind : findUrlSeg ("https://arxiv.org/pdf/".toList ++
        ((a ++ '.' :: (b ++ ver)) ++ ".pdf".toList))
        = some ((a ++ '.' :: (b ++ ver)) ++ ".pdf".toList) :=
      (findUrlSeg_https ("arxiv.org/pdf/".toList ++
        ((a ++ '.' :: (b ++ ver)) ++ ".pdf".toList))).trans
        (findUrlSeg_cons_some 'a' _ _ (urlSegAt_pdf _ hneP hqhP))
    have hdecP : jsDecodeUriComp (stripSlashEnd
        (stripPdfExt ((a ++ '.' :: (b ++ ver)) ++ ".pdf".toList)))
        = some (a ++ '.' :: (b ++ ver)) := by
      rw [stripPdfExt_append, stripSlashEnd_eq_self _ hsl]
      exact jsDecodeUriComp_eq_self _ hpc
    exact normalizeArxivId_url_some
      (String.mk ("https://arxiv.org/pdf/".toList ++
        ((a ++ '.' :: (b ++ ver)) ++ ".pdf".toList)))
      (mkne 'h' _) _ _ _
      (by rw [htr]; exact hm0) (by rw [htr]; exact hfind) hdecP hmid
  · have hwsU : ∀ c ∈ "https://arxiv.org/html/".toList ++ (a ++ '.' :: (b ++ ver)),
        jsWs c = false := by
      intro c hc
      rcases List.mem_append.mp hc with h | h
      · exact all_mem_false jsWs _ (by decide) c h
      · exact hws c h
    have htr : jsTrim (String.mk
          ("https://arxiv.org/html/".toList ++ (a ++ '.' :: (b ++ ver)))).toList
        = "https://arxiv.org/html/".toList ++ (a ++ '.' :: (b ++ ver)) :=
      jsTrim_eq_self _ hwsU
    have hm0 : matchNewId ("https://arxiv.org/html/".toList ++ (a ++ '.' :: (b ++ ver)))
        = none := matchNewId_none_of_head 'h' _ (by decide)
    have hfind : findUrlSeg ("https://arxiv.org/html/".toList ++ (a ++ '.' :: (b ++ ver)))
        = some (a ++ '.' :: (b ++ ver)) :=
      (findUrlSeg_https ("arxiv.org/html/".toList ++ (a ++ '.' :: (b ++ ver)))).trans
        (findUrlSeg_cons_some 'a' _ _ (urlSegAt_html _ hne hqh))
    exact normalizeArxivId_url_some
      (String.mk ("https://arxiv.org/html/".toList ++ (a ++ '.' :: (b ++ ver))))
      (mkne 'h' _) _ _ _
      (by rw [htr]; exact hm0) (by rw [htr]; exact hfind) hdec hmid

/-- Witness for C8 at the concrete input of the spec example: the PDF URL
form of 2503.01078v2 normalises to 2503.01078, as do the other three
presentations of the same identifier. -/
theorem c8_normalizer_uniform_across_forms_witness :
    normalizeArxivId "https://arxiv.org/pdf/2503.01078v2.pdf" = some "2503.01078" ∧
    normalizeArxivId "2503.01078v2" = some "2503.01078" ∧
    normalizeArxivId "https://arxiv.org/abs/2503.01078v2" = some "2503.01078" ∧
    normalizeArxivId "https://arxiv.org/html/2503.01078v2" = some "2503.01078" := by
  have h := c8_normalizer_uniform_across_forms
    ['2', '5', '0', '3'] ['0', '1', '0', '7', '8'] ['v', '2']
    (by decide) (by decide) (by decide) (by decide) (by decide)
  refine ⟨?_, ?_, ?_, ?_⟩
  · exact h.2.2.1
  · exact h.1
  · exact h.2.1
  · exact h.2.2.2

/-- C4 counterexample: on a URL input whose trailing path segment contains
malformed percent-encoding, normalizeArxivId does not return the empty
string failure value: the decodeURIComponent call throws a URIError that
escapes to the caller (modelled by `none`). -/
theorem c4_normalizer_counterexample :
    normalizeArxivId "https://arxiv.org/abs/%" = none ∧
    ¬(normalizeArxivId "https://arxiv.org/abs/%" = some "") := by
  constructor
  · decide
  · decide

/-- C4 (amended): for every input string whose URL-extracted trailing
segment, if any, is free of malformed percent-encoding, normalizeArxivId
never throws; and if the input is moreover not recognised (no direct
identifier match, and no identifier match after URL extraction and
decoding), it returns the empty-string failure value.  URL inputs whose
trailing segment contains malformed percent-encoding are the exception: on
those the function throws a URIError instead of returning the failure
value (see the counterexample). -/
theorem c4_normalizer_failure_behaviour (s : String)
    (hwell : ∀ seg, findUrlSeg (jsTrim s.toList) = some seg →
        ¬(jsDecodeUriComp (stripSlashEnd (stripPdfExt seg)) = none)) :
    ¬(normalizeArxivId s = none) ∧
    ((matchNewId (jsTrim s.toList) = none ∧
      ∀ seg raw, findUrlSeg (jsTrim s.toList) = some seg →
        jsDecodeUriComp (stripSlashEnd (stripPdfExt seg)) = some raw →
        matchNewId raw = none) →
      normalizeArxivId s = some "") := by
  constructor
  · by_cases hs : s = ""
    · subst hs; decide
    · rcases hm : matchNewId (jsTrim s.toList) with _ | id
      · rcases hf : findUrlSeg (jsTrim s.toList) with _ | seg
        · rw [normalizeArxivId_nourl s hs hm hf]; simp
        · rcases hd : jsDecodeUriComp (stripSlashEnd (stripPdfExt seg)) with _ | raw
          · exact absurd hd (hwell seg hf)
          · rcases hm2 : matchNewId raw with _ | id2
            · rw [normalizeArxivId_url_nomatch s hs seg raw hm hf hd hm2]; simp
            · rw [normalizeArxivId_url_some s hs seg raw id2 hm hf hd hm2]; simp
      · rw [normalizeArxivId_direct s hs id hm]; simp
  · rintro ⟨hm, hall⟩
    by_cases hs : s = ""
    · subst hs; decide
    · rcases hf : findUrlSeg (jsTrim s.toList) with _ | seg
      · exact normalizeArxivId_nourl s hs hm hf
      · rcases hd : jsDecodeUriComp (stripSlashEnd (stripPdfExt seg)) with _ | raw
        · exact absurd hd (hwell seg hf)
        · exact normalizeArxivId_url_nomatch s hs seg raw hm hf hd (hall seg raw hf hd)

/-- Witness for C4 (amended) at a concrete unrecognised input. -/
theorem c4_normalizer_failure_behaviour_witness :
    ¬(normalizeArxivId "hello" = none) ∧ normalizeArxivId "hello" = some "" := by
  have hfu : findUrlSeg (jsTrim "hello".toList) = none := by decide
  have h := c4_normalizer_failure_behaviour "hello"
    (fun seg hs => by rw [hfu] at hs; cases hs)
  exact ⟨h.1, h.2 ⟨by decide, fun seg raw hs _ => by rw [hfu] at hs; cases hs⟩⟩

end ArxivJs

namespace LlmJs

/-! ## scripts/llm.js -/

/-- fallbackSummary (llm.js lines 5-6): deterministic template built from
the title, used when the completion service is unconfigured or fails. -/
def fallbackSummary (title : String) : String :=
  "论文标题为 \"" ++ title ++ "\"，本文关注机器人相关问题，给出方法与实验结果概述。"

/-- fallbackDetailed (llm.js lines 8-11). -/
def fallbackDetailed (title : String) : String :=
  "## 概述\n\n本文题为 \"" ++ title ++ "\"，聚焦于机器人领域的关键挑战。\n\n" ++
    "## 方法\n\n文章提出了一种新颖的技术方案。\n\n" ++
    "## 实验与结论\n\n实验表明该方法在基准测试中取得了有竞争力的结果。"

/-- Scanner collecting the maximal runs of ASCII decimal digits, with the
current (reversed) run as accumulator. -/
def digitRunsAux (cur : List Char) : List Char → List (List Char)
  | [] => if cur.isEmpty then [] else [cur.reverse]
  | c :: cs =>
    if Char.isDigit c then digitRunsAux (c :: cur) cs
    else if cur.isEmpty then digitRunsAux [] cs
    else cur.reverse :: digitRunsAux [] cs

/-- Maximal runs of ASCII decimal digits, in order, as matched by the
global digits regex in filterByRelevance (llm.js line 146). -/
def digitRuns (cs : List Char) : List (List Char) :=
  digitRunsAux [] cs

/-- parseInt in base 10 on a run of decimal digits. -/
def natOfDigits (ds : List Char) : Nat :=
  ds.foldl (fun n c => 10 * n + (c.toNat - '0'.toNat)) 0

/-- The batch slicing loop of filterByRelevance (llm.js lines 111-119):
`items.slice(i, i + BATCH)` for i = 0, 40, 80, .... -/
def mkBatches {α : Type} : List α → List (List α)
  | [] => []
  | c :: cs => (c :: cs.take 39) :: mkBatches (cs.drop 39)
termination_by l => l.length
decreasing_by
  simp only [List.length_cons, List.length_drop]
  omega

/-- The per-batch task body of filterByRelevance (llm.js lines 121-153),
given the callLLM outcome for the batch (`none` models the null returned on
request failure or empty content).  A null result keeps the whole batch;
the sentinel `无` (after trimming) keeps nothing; otherwise every number in
the response is read with parseInt, decremented, kept if it is a valid
0-based index of the batch, and mapped back to the batch item. -/
def filterBatch {α : Type} (batch : List α) (result : Option String) : List α :=
  match result with
  | none => batch
  | some r =>
    if jsTrim r.toList = "无".toList then []
    else
      let indices : List Int :=
        ((digitRuns r.toList).map (fun ds => (natOfDigits ds : Int) - 1)).filter
          (fun n => decide (0 ≤ n) && decide (n < (batch.length : Int)))
      indices.filterMap (fun n => batch.get? n.toNat)

/-- Embedding of filterByRelevance (llm.js lines 106-159).  `llmOn` is the
truthiness conjunction of LLM_ENABLE, LLM_PROVIDER and LLM_API_KEY;
`resp i` is the callLLM outcome for batch `i`.  The batch tasks are run by
runConcurrent, which stores every outcome at its own index (see the C1
development), and the results are then flattened, so the returned list is
the concatenation of the per-batch results in batch order. -/
def filterByRelevance {α : Type} (llmOn : Bool) (items : List α)
    (resp : Nat → Option String) : List α :=
  if !llmOn then items
  else ((mkBatches items).mapIdx (fun i batch => filterBatch batch (resp i))).flatten

/-- Stated from the words of claim C3, for comparison with the embedding:
split the candidates into batches of 40; a failed completion call keeps its
whole batch (fail-open); the "none relevant" sentinel yields an empty batch
result; otherwise each returned number is interpreted as a 1-based index
into the batch, out-of-range indices are discarded, and exactly the
selected items are kept. -/
def filterSpec {α : Type} (items : List α) (resp : Nat → Option String) : List α :=
  ((mkBatches items).mapIdx (fun i batch =>
    match resp i with
    | none => batch
    | some r =>
      if jsTrim r.toList = "无".toList then []
      else ((digitRuns r.toList).map natOfDigits).filterMap
        (fun k => if 1 ≤ k ∧ k ≤ batch.length then batch.get? (k - 1) else none))).flatten

theorem mkBatches_flatten {α : Type} : ∀ (items : List α),
    (mkBatches items).flatten = items
  | [] => by rw [mkBatches]; rfl
  | c :: cs => by
    rw [mkBatches]
    simp only [List.flatten_cons]
    rw [mkBatches_flatten (cs.drop 39)]
    simp [List.take_append_drop]
termination_by items => items.length
decreasing_by simp only [List.length_cons, List.length_drop]; omega

theorem mkBatches_mem {α : Type} : ∀ (items : List α) (b : List α),
    b ∈ mkBatches items → b.length ≤ 40 ∧ b ≠ []
  | [], b, h => by rw [mkBatches] at h; cases h
  | c :: cs, b, h => by
    rw [mkBatches] at h
    rcases List.mem_cons.mp h with h | h
    · subst h
      refine ⟨?_, by simp⟩
      simp only [List.length_cons, List.length_take]
      omega
    · exact mkBatches_mem (cs.drop 39) b h
termination_by items => items.length
decreasing_by simp only [List.length_cons, List.length_drop]; omega

theorem mkBatches_small {α : Type} (c : α) (cs : List α) (h : cs.length ≤ 39) :
    mkBatches (c :: cs) = [c :: cs] := by
  rw [mkBatches, List.take_of_length_le h, List.drop_of_length_le h, mkBatches]

theorem int_spec_indices {α : Type} (len : Nat) (g : Nat → Option α) :
    ∀ (ks : List Nat),
      ((ks.map (fun k : Nat => (k : Int) - 1)).filter
          (fun n => decide (0 ≤ n) && decide (n < (len : Int)))).filterMap
        (fun n => g n.toNat) =
      ks.filterMap (fun k => if 1 ≤ k ∧ k ≤ len then g (k - 1) else none)
  | [] => rfl
  | k :: ks => by
    by_cases h1 : 1 ≤ k ∧ k ≤ len
    · have hc : (decide ((0 : Int) ≤ (k : Int) - 1) &&
          decide ((k : Int) - 1 < (len : Int))) = true := by
        simp only [Bool.and_eq_true, decide_eq_true_eq]
        omega
      have ht : ((k : Int) - 1).toNat = k - 1 := by omega
      simp only [List.map_cons, List.filter_cons, hc, if_true, reduceIte,
        List.filterMap_cons, if_pos h1, ht, int_spec_indices len g ks]
    · have hc : (decide ((0 : Int) ≤ (k : Int) - 1) &&
          decide ((k : Int) - 1 < (len : Int))) = false := by
        rw [Bool.eq_false_iff]
        intro hcc
        rw [Bool.and_eq_true, decide_eq_true_eq, decide_eq_true_eq] at hcc
        exact h1 ⟨by omega, by omega⟩
      simp only [List.map_cons, List.filter_cons, hc, Bool.false_eq_true, if_false,
        reduceIte, List.filterMap_cons, if_neg h1, int_spec_indices len g ks]

theorem filterBatch_eq_spec {α : Type} (batch : List α) (r : String) :
    filterBatch batch (some r) =
      if jsTrim r.toList = "无".toList then []
      else ((digitRuns r.toList).map natOfDigits).filterMap
        (fun k => if 1 ≤ k ∧ k ≤ batch.length then batch.get? (k - 1) else none) := by
  simp only [filterBatch]
  split
  · rfl
  · have hmm : (digitRuns r.toList).map (fun ds => (natOfDigits ds : Int) - 1)
        = ((digitRuns r.toList).map natOfDigits).map (fun k : Nat => (k : Int) - 1) := by
      rw [List.map_map]
      rfl
    rw [hmm]
    exact int_spec_indices batch.length batch.get? ((digitRuns r.toList).map natOfDigits)

theorem filterByRelevance_eq_spec {α : Type} (items : List α)
    (resp : Nat → Option String) :
    filterByRelevance true items resp = filterSpec items resp := by
  unfold filterByRelevance filterSpec
  simp only [Bool.not_true, Bool.false_eq_true, if_false, reduceIte]
  congr 1
  congr 1
  funext i batch
  rcases resp i with _ | r
  · rfl
  · exact filterBatch_eq_spec batch r

theorem flatten_mapIdx_decomp {α β : Type} : ∀ (l : List (List α))
    (f : Nat → List α → List β) (j : Nat) (hj : j < l.length),
    ∃ pre post, (l.mapIdx f).flatten = pre ++ f j (l.get ⟨j, hj⟩) ++ post
  | [], _, j, hj => by simp at hj
  | x :: xs, f, 0, _ =>
    ⟨[], (xs.mapIdx (fun i => f (i + 1))).flatten, by
      simp [List.mapIdx_cons]⟩
  | x :: xs, f, j + 1, hj => by
    obtain ⟨pre, post, h⟩ :=
      flatten_mapIdx_decomp xs (fun i => f (i + 1)) j (by simpa using hj)
    exact ⟨f 0 x ++ pre, post, by simp [List.mapIdx_cons, h]⟩

theorem filterBatch_subset {α : Type} (batch : List α) (r : Option String) :
    ∀ x ∈ filterBatch batch r, x ∈ batch := by
  intro x hx
  rcases r with _ | r
  · exact hx
  · simp only [filterBatch] at hx
    split at hx
    · cases hx
    · rcases List.mem_filterMap.mp hx with ⟨n, _, hget⟩
      exact List.get?_mem hget

theorem filterByRelevance_subset {α : Type} (llmOn : Bool) (items : List α)
    (resp : Nat → Option String) :
    ∀ x ∈ filterByRelevance llmOn items resp, x ∈ items := by
  intro x hx
  unfold filterByRelevance at hx
  rcases llmOn with _ | _
  · simpa using hx
  · simp only [Bool.not_true, Bool.false_eq_true, if_false, reduceIte] at hx
    rcases List.mem_flatten.mp hx with ⟨comp, hcomp, hxc⟩
    rcases List.mem_mapIdx.mp hcomp with ⟨i, hi, hf⟩
    rw [← hf] at hxc
    have hxb : x ∈ (mkBatches items)[i] := filterBatch_subset _ _ x hxc
    have hflat : x ∈ (mkBatches items).flatten :=
      List.mem_flatten.mpr ⟨(mkBatches items)[i], List.getElem_mem hi, hxb⟩
    rwa [mkBatches_flatten] at hflat

/-- C3: filterByRelevance splits the candidate list into batches of 40
(their concatenation is the candidate list and none exceeds 40 items),
agrees with the 1-based-index reading of the claim (out-of-range indices
discarded, unselected items rejected), treats the trimmed sentinel 无 as an
empty batch result, keeps an entire batch when its completion call fails,
and on three titles with response "1,3" keeps the first and third and
rejects the second. -/
theorem c3_filter_by_relevance (α : Type) (items : List α)
    (resp : Nat → Option String) :
    ((mkBatches items).flatten = items ∧ ∀ b ∈ mkBatches items, b.length ≤ 40) ∧
    filterByRelevance true items resp = filterSpec items resp ∧
    (∀ (b : List α) (r : String), jsTrim r.toList = "无".toList →
      filterBatch b (some r) = []) ∧
    (∀ j (hj : j < (mkBatches items).length), resp j = none →
      ∃ pre post, filterByRelevance true items resp =
        pre ++ (mkBatches items).get ⟨j, hj⟩ ++ post) ∧
    (∀ x y z : α, filterByRelevance true [x, y, z] (fun _ => some "1,3") = [x, z]) := by
  refine ⟨⟨mkBatches_flatten items, fun b hb => (mkBatches_mem items b hb).1⟩,
    filterByRelevance_eq_spec items resp, ?_, ?_, ?_⟩
  · intro b r hr
    simp only [filterBatch, hr, if_true, reduceIte]
  · intro j hj hnone
    obtain ⟨pre, post, h⟩ :=
      flatten_mapIdx_decomp (mkBatches items)
        (fun i batch => filterBatch batch (resp i)) j hj
    refine ⟨pre, post, ?_⟩
    unfold filterByRelevance
    simp only [Bool.not_true, Bool.false_eq_true, if_false, reduceIte]
    rw [h, hnone]
    rfl
  · intro x y z
    unfold filterByRelevance
    simp only [Bool.not_true, Bool.false_eq_true, if_false, reduceIte]
    rw [mkBatches_small x [y, z] (by simp)]
    simp only [List.mapIdx_cons, List.mapIdx_nil, List.flatten]
    rw [show filterBatch [x, y, z] (some "1,3") = [x, z] from ?_]
    · simp
    · simp only [filterBatch]
      rw [if_neg (by decide)]
      rfl

/-- Witness for C3 at concrete inputs: the batch structure over three
strings, the spec example response "1,3", and the fail-open behaviour of a
failed batch call. -/
theorem c3_filter_by_relevance_witness :
    filterByRelevance true ["A", "B", "C"] (fun _ => some "1,3") = ["A", "C"] ∧
    (mkBatches ["A", "B", "C"]).flatten = ["A", "B", "C"] ∧
    (∃ pre post, filterByRelevance true ["A", "B", "C"] (fun _ => none) =
      pre ++ (mkBatches ["A", "B", "C"]).get ⟨0, by rw [mkBatches_small _ _ (by simp)]; simp⟩
        ++ post) := by
  have h := c3_filter_by_relevance String ["A", "B", "C"] (fun _ => some "1,3")
  have h2 := c3_filter_by_relevance String ["A", "B", "C"] (fun _ => none)
  exact ⟨h.2.2.2.2 "A" "B" "C", h.1.1,
    h2.2.2.2.1 0 (by rw [mkBatches_small _ _ (by simp)]; simp) rfl⟩

/-! ## The concurrency helper runConcurrent (llm.js lines 72-87)

The function body is modelled as a transition system over its shared
state: the shared cursor `nextIdx`, the shared `results` array (one slot
per task, unwritten slots `none`), and the pool of
`Math.min(concurrency, tasks.length)` workers.  Node's cooperative
scheduling interleaves the workers only at the `await tasks[idx]()`
suspension point, so the atomic steps are: a worker reads and
post-increments the cursor and starts the task it claimed (`grab`); an
awaited task settles and the worker stores the outcome at its claimed
index and loops (`finish`); a worker observes the cursor at or past the
end and its loop terminates (`retire`).  A task is modelled by its outcome
value of type `α`: in this repository every task body catches its own
failures and resolves with a fallback value, so a failure is an ordinary
outcome (for instance an `Except.error` value), not a promise rejection. -/

inductive WStatus where
  | ready : WStatus
  | running : Nat → WStatus
  | done : WStatus
deriving DecidableEq, Repr

structure RCState (α : Type) where
  nextIdx : Nat
  results : List (Option α)
  workers : List WStatus
deriving DecidableEq, Repr

/-- State at entry of `await Promise.all(...)`: cursor at 0, no slot of
`results` written, `Math.min(concurrency, tasks.length)` workers about to
run their loop. -/
def rcInit {α : Type} (tasks : List α) (L : Nat) : RCState α :=
  ⟨0, List.replicate tasks.length none, List.replicate (min L tasks.length) .ready⟩

/-- One cooperative scheduling step of runConcurrent, taken by the worker
at pool position `w`. -/
inductive RCStep {α : Type} (tasks : List α) : RCState α → RCState α → Prop where
  | grab (w : Nat) (s : RCState α)
      (hw : s.workers[w]? = some .ready) (h : s.nextIdx < tasks.length) :
      RCStep tasks s ⟨s.nextIdx + 1, s.results, s.workers.set w (.running s.nextIdx)⟩
  | finish (w i : Nat) (s : RCState α)
      (hw : s.workers[w]? = some (.running i)) :
      RCStep tasks s ⟨s.nextIdx, s.results.set i tasks[i]?, s.workers.set w .ready⟩
  | retire (w : Nat) (s : RCState α)
      (hw : s.workers[w]? = some .ready) (h : tasks.length ≤ s.nextIdx) :
      RCStep tasks s ⟨s.nextIdx, s.results, s.workers.set w .done⟩

/-- States reachable by the cooperative scheduler from the initial state,
under any interleaving. -/
def Reachable {α : Type} (tasks : List α) (L : Nat) (s : RCState α) : Prop :=
  Relation.ReflTransGen (RCStep tasks) (rcInit tasks L) s

/-- Number of tasks in flight: workers currently awaiting a claimed task. -/
def inFlight {α : Type} (s : RCState α) : Nat :=
  s.workers.countP (fun w => match w with | .running _ => true | _ => false)

/-- Every worker loop has returned, i.e. the Promise.all has resolved. -/
def AllDone {α : Type} (s : RCState α) : Prop := ∀ w ∈ s.workers, w = .done

/-- Invariant of the scheduler, preserved by every step. -/
structure RCInv {α : Type} (tasks : List α) (L : Nat) (s : RCState α) : Prop where
  res_len : s.results.length = tasks.length
  wk_len : s.workers.length = min L tasks.length
  next_le : s.nextIdx ≤ tasks.length
  run_lt : ∀ (w i : Nat), s.workers[w]? = some (WStatus.running i) → i < s.nextIdx
  claimed : ∀ (i : Nat), i < s.nextIdx →
    s.results[i]? = some tasks[i]? ∨ ∃ (w : Nat), s.workers[w]? = some (WStatus.running i)
  done_full : ∀ (w : Nat), s.workers[w]? = some WStatus.done → s.nextIdx = tasks.length

theorem rcInit_inv {α : Type} (tasks : List α) (L : Nat) :
    RCInv tasks L (rcInit tasks L) := by
  refine ⟨by simp [rcInit], by simp [rcInit], by simp [rcInit], ?_, ?_, ?_⟩
  · intro w i hw
    rw [show (rcInit tasks L).workers = List.replicate (min L tasks.length) .ready
        from rfl, List.getElem?_replicate] at hw
    split at hw
    · cases hw
    · cases hw
  · intro i hi
    simp [rcInit] at hi
  · intro w hw
    rw [show (rcInit tasks L).workers = List.replicate (min L tasks.length) .ready
        from rfl, List.getElem?_replicate] at hw
    split at hw
    · cases hw
    · cases hw

theorem rcStep_inv {α : Type} (tasks : List α) (L : Nat) (s s' : RCState α)
    (inv : RCInv tasks L s) (hstep : RCStep tasks s s') : RCInv tasks L s' := by
  cases hstep with
  | grab w s hw h =>
    have hwlt : w < s.workers.length := by
      by_contra hge
      rw [List.getElem?_eq_none (Nat.le_of_not_lt hge)] at hw
      cases hw
    refine ⟨by simpa using inv.res_len, by simpa using inv.wk_len, h, ?_, ?_, ?_⟩
    · intro w2 i hw2
      simp only at hw2
      rcases Nat.decEq w w2 with hne | heq
      · rw [List.getElem?_set_ne hne] at hw2
        exact Nat.lt_succ_of_lt (inv.run_lt w2 i hw2)
      · subst heq
        rw [List.getElem?_set_self hwlt] at hw2
        cases hw2 with | refl => exact Nat.lt_succ_self _
    · intro i hi
      simp only
      rcases Nat.lt_or_ge i s.nextIdx with hlt | hge
      · rcases inv.claimed i hlt with hres | ⟨w2, hw2⟩
        · exact Or.inl hres
        · right
          refine ⟨w2, ?_⟩
          have hne : w ≠ w2 := by
            intro he
            subst he
            rw [hw] at hw2
            cases hw2
          rw [List.getElem?_set_ne hne]
          exact hw2
      · have hieq : i = s.nextIdx := Nat.le_antisymm (Nat.lt_succ_iff.mp hi) hge
        subst hieq
        right
        exact ⟨w, by rw [List.getElem?_set_self hwlt]⟩
    · intro w2 hw2
      simp only at hw2
      exfalso
      rcases Nat.decEq w w2 with hne | heq
      · rw [List.getElem?_set_ne hne] at hw2
        exact absurd h (Nat.not_lt.mpr (inv.done_full w2 hw2 ▸ Nat.le_refl _))
      · subst heq
        rw [List.getElem?_set_self hwlt] at hw2
        cases hw2
  | finish w i s hw =>
    have hwlt : w < s.workers.length := by
      by_contra hge
      rw [List.getElem?_eq_none (Nat.le_of_not_lt hge)] at hw
      cases hw
    have hilt : i < s.nextIdx := inv.run_lt w i hw
    refine ⟨by simpa using inv.res_len, by simpa using inv.wk_len,
      inv.next_le, ?_, ?_, ?_⟩
    · intro w2 j hw2
      simp only at hw2
      rcases Nat.decEq w w2 with hne | heq
      · rw [List.getElem?_set_ne hne] at hw2
        exact inv.run_lt w2 j hw2
      · subst heq
        rw [List.getElem?_set_self hwlt] at hw2
        cases hw2
    · intro j hj
      simp only at hj ⊢
      rcases Nat.decEq i j with hne | heq
      · rcases inv.claimed j hj with hres | ⟨w2, hw2⟩
        · left
          rw [List.getElem?_set_ne hne]
          exact hres
        · rcases Nat.decEq w w2 with hwne | hweq
          · right
            refine ⟨w2, ?_⟩
            rw [List.getElem?_set_ne hwne]
            exact hw2
          · subst hweq
            rw [hw] at hw2
            cases hw2 with | refl => exact absurd rfl hne
      · subst heq
        left
        have hreslt : i < s.results.length := by
          rw [inv.res_len]
          exact Nat.lt_of_lt_of_le hilt inv.next_le
        rw [List.getElem?_set_self hreslt]
    · intro w2 hw2
      simp only at hw2
      rcases Nat.decEq w w2 with hne | heq
      · rw [List.getElem?_set_ne hne] at hw2
        exact inv.done_full w2 hw2
      · subst heq
        rw [List.getElem?_set_self hwlt] at hw2
        cases hw2
  | retire w s hw h =>
    have hwlt : w < s.workers.length := by
      by_contra hge
      rw [List.getElem?_eq_none (Nat.le_of_not_lt hge)] at hw
      cases hw
    refine ⟨by simpa using inv.res_len, by simpa using inv.wk_len,
      inv.next_le, ?_, ?_, ?_⟩
    · intro w2 i hw2
      simp only at hw2
      rcases Nat.decEq w w2 with hne | heq
      · rw [List.getElem?_set_ne hne] at hw2
        exact inv.run_lt w2 i hw2
      · subst heq
        rw [List.getElem?_set_self hwlt] at hw2
        cases hw2
    · intro i hi
      simp only at hi ⊢
      rcases inv.claimed i hi with hres | ⟨w2, hw2⟩
      · exact Or.inl hres
      · right
        refine ⟨w2, ?_⟩
        have hne : w ≠ w2 := by
          intro he
          subst he
          rw [hw] at hw2
          cases hw2
        rw [List.getElem?_set_ne hne]
        exact hw2
    · intro w2 _
      exact Nat.le_antisymm inv.next_le h

theorem reachable_inv {α : Type} (tasks : List α) (L : Nat) (s : RCState α)
    (hr : Reachable tasks L s) : RCInv tasks L s := by
  induction hr with
  | refl => exact rcInit_inv tasks L
  | tail _ hstep ih => exact rcStep_inv tasks L _ _ ih hstep

theorem inFlight_le {α : Type} (tasks : List α) (L : Nat) (s : RCState α)
    (inv : RCInv tasks L s) : inFlight s ≤ min L tasks.length := by
  calc inFlight s ≤ s.workers.length := List.countP_le_length _
    _ = min L tasks.length := inv.wk_len

theorem allDone_results {α : Type} (tasks : List α) (L : Nat) (s : RCState α)
    (inv : RCInv tasks L s) (hL : 1 ≤ L) (had : AllDone s) :
    s.results = tasks.map some := by
  rcases Nat.eq_zero_or_pos tasks.length with hn | hn
  · have h0 : s.results = [] :=
      List.eq_nil_of_length_eq_zero (by rw [inv.res_len, hn])
    have h1 : tasks = [] := List.eq_nil_of_length_eq_zero hn
    rw [h0, h1]
    rfl
  · have hWpos : 0 < s.workers.length := by
      rw [inv.wk_len]
      exact Nat.lt_min.mpr ⟨hL, hn⟩
    rcases hx : s.workers[0]? with _ | w0
    · rw [List.getElem?_eq_none_iff] at hx
      omega
    · have hw0done : w0 = WStatus.done := had w0 (List.getElem?_mem hx)
      have hfull : s.nextIdx = tasks.length :=
        inv.done_full 0 (hx.trans (by rw [hw0done]))
      apply List.ext_getElem?
      intro i
      rcases Nat.lt_or_ge i tasks.length with hi | hi
      · rcases inv.claimed i (by rw [hfull]; exact hi) with hres | ⟨w2, hw2⟩
        · rw [hres, List.getElem?_map]
          rcases htask : tasks[i]? with _ | v
          · rw [List.getElem?_eq_none_iff] at htask
            omega
          · rfl
        · exfalso
          have hcon : WStatus.running i = WStatus.done :=
            had _ (List.getElem?_mem hw2)
          cases hcon
      · rw [List.getElem?_eq_none (by rw [inv.res_len]; exact hi),
          List.getElem?_eq_none (by rw [List.length_map]; exact hi)]

/-- Intermediate state of the canonical sequential schedule, with the first
`k` tasks completed and every worker at the top of its loop. -/
def rcMid {α : Type} (tasks : List α) (L k : Nat) : RCState α :=
  ⟨k, (tasks.take k).map some ++ List.replicate (tasks.length - k) none,
    List.replicate (min L tasks.length) WStatus.ready⟩

/-- Retiring state of the canonical schedule: all tasks done, the first `j`
workers retired. -/
def rcRet {α : Type} (tasks : List α) (L j : Nat) : RCState α :=
  ⟨tasks.length, tasks.map some,
    List.replicate j WStatus.done ++
      List.replicate (min L tasks.length - j) WStatus.ready⟩

/-- Resolved state of runConcurrent: every slot of the result array holds
the outcome of its own task and every worker has returned. -/
def rcFinal {α : Type} (tasks : List α) (L : Nat) : RCState α :=
  ⟨tasks.length, tasks.map some, List.replicate (min L tasks.length) WStatus.done⟩

theorem rcMid_zero {α : Type} (tasks : List α) (L : Nat) :
    rcMid tasks L 0 = rcInit tasks L := by
  simp [rcMid, rcInit]

theorem rcMid_steps {α : Type} (tasks : List α) (L k : Nat) (hL : 1 ≤ L)
    (hk : k < tasks.length) :
    Relation.ReflTransGen (RCStep tasks) (rcMid tasks L k) (rcMid tasks L (k + 1)) := by
  have hW : 0 < min L tasks.length :=
    Nat.lt_min.mpr ⟨hL, Nat.lt_of_le_of_lt (Nat.zero_le k) hk⟩
  have hready : (List.replicate (min L tasks.length) WStatus.ready)[0]? =
      some WStatus.ready := List.getElem?_replicate_of_lt hW
  have h1 : RCStep tasks (rcMid tasks L k)
      ⟨k + 1, (tasks.take k).map some ++ List.replicate (tasks.length - k) none,
        (List.replicate (min L tasks.length) WStatus.ready).set 0
          (WStatus.running k)⟩ :=
    RCStep.grab 0 (rcMid tasks L k) hready hk
  have hrun : ((List.replicate (min L tasks.length) WStatus.ready).set 0
      (WStatus.running k))[0]? = some (WStatus.running k) :=
    List.getElem?_set_self (by simpa using hW)
  have h2 := @RCStep.finish _ tasks 0 k
    ⟨k + 1, (tasks.take k).map some ++ List.replicate (tasks.length - k) none,
      (List.replicate (min L tasks.length) WStatus.ready).set 0
        (WStatus.running k)⟩ hrun
  have hres : ((tasks.take k).map some ++
      List.replicate (tasks.length - k) none).set k tasks[k]?
      = (tasks.take (k + 1)).map some ++
        List.replicate (tasks.length - (k + 1)) none := by
    have hlen : ((tasks.take k).map some).length = k := by
      rw [List.length_map, List.length_take]
      omega
    rw [List.set_append_right _ _ (by rw [hlen]), hlen, Nat.sub_self]
    rcases hm : tasks.length - k with _ | m
    · omega
    · rcases hkt : tasks[k]? with _ | v
      · rw [List.getElem?_eq_none_iff] at hkt
        omega
      · rw [List.replicate_succ]
        rw [show (tasks.length - (k + 1)) = m from by omega]
        rw [List.take_succ, hkt]
        simp [List.set]
  have hwk : (((List.replicate (min L tasks.length) WStatus.ready).set 0
      (WStatus.running k)).set 0 WStatus.ready)
      = List.replicate (min L tasks.length) WStatus.ready := by
    rw [List.set_set, List.set_replicate_self]
  have h2e : RCStep tasks
      ⟨k + 1, (tasks.take k).map some ++ List.replicate (tasks.length - k) none,
        (List.replicate (min L tasks.length) WStatus.ready).set 0
          (WStatus.running k)⟩
      (rcMid tasks L (k + 1)) := by
    rw [show rcMid tasks L (k + 1) = ⟨k + 1,
        ((tasks.take k).map some ++ List.replicate (tasks.length - k) none).set k
          tasks[k]?,
        (((List.replicate (min L tasks.length) WStatus.ready).set 0
          (WStatus.running k)).set 0 WStatus.ready)⟩ from by
      rw [hres, hwk]
      rfl]
    exact h2
  exact Relation.ReflTransGen.head h1 (Relation.ReflTransGen.single h2e)

theorem rcMid_reachable {α : Type} (tasks : List α) (L : Nat) (hL : 1 ≤ L) :
    ∀ k, k ≤ tasks.length → Reachable tasks L (rcMid tasks L k)
  | 0, _ => by
    rw [rcMid_zero]
    exact Relation.ReflTransGen.refl
  | k + 1, hk =>
    Relation.ReflTransGen.trans
      (rcMid_reachable tasks L hL k (Nat.le_of_succ_le hk))
      (rcMid_steps tasks L k hL (Nat.lt_of_succ_le hk))

theorem rcRet_zero {α : Type} (tasks : List α) (L : Nat) :
    rcMid tasks L tasks.length = rcRet tasks L 0 := by
  simp [rcMid, rcRet]

theorem rcRet_step {α : Type} (tasks : List α) (L j : Nat)
    (hj : j < min L tasks.length) :
    RCStep tasks (rcRet tasks L j) (rcRet tasks L (j + 1)) := by
  have hready : ((rcRet tasks L j).workers)[j]? = some WStatus.ready := by
    show (List.replicate j WStatus.done ++
      List.replicate (min L tasks.length - j) WStatus.ready)[j]? = _
    rw [List.getElem?_append_right (by simp), List.length_replicate, Nat.sub_self]
    exact List.getElem?_replicate_of_lt (by omega)
  have h := @RCStep.retire _ tasks j (rcRet tasks L j) hready
    (Nat.le_refl tasks.length)
  have hwk : ((rcRet tasks L j).workers).set j WStatus.done =
      (rcRet tasks L (j + 1)).workers := by
    show (List.replicate j WStatus.done ++
        List.replicate (min L tasks.length - j) WStatus.ready).set j WStatus.done =
      List.replicate (j + 1) WStatus.done ++
        List.replicate (min L tasks.length - (j + 1)) WStatus.ready
    rw [List.set_append_right _ _ (by simp), List.length_replicate, Nat.sub_self]
    rcases hm : min L tasks.length - j with _ | m
    · omega
    · rw [List.replicate_succ]
      rw [show min L tasks.length - (j + 1) = m from by omega]
      rw [show List.replicate (j + 1) WStatus.done =
        List.replicate j WStatus.done ++ [WStatus.done] from by
          rw [← List.replicate_succ']]
      simp [List.set]
  have hfin : (⟨(rcRet tasks L j).nextIdx, (rcRet tasks L j).results,
      ((rcRet tasks L j).workers).set j WStatus.done⟩ : RCState α) =
      rcRet tasks L (j + 1) := by
    rw [hwk]
    rfl
  exact hfin ▸ h

theorem rcRet_reachable {α : Type} (tasks : List α) (L : Nat) :
    ∀ j, j ≤ min L tasks.length →
      Relation.ReflTransGen (RCStep tasks) (rcRet tasks L 0) (rcRet tasks L j)
  | 0, _ => Relation.ReflTransGen.refl
  | j + 1, hj =>
    Relation.ReflTransGen.tail
      (rcRet_reachable tasks L j (Nat.le_of_succ_le hj))
      (rcRet_step tasks L j (Nat.lt_of_succ_le hj))

theorem rcFinal_reachable {α : Type} (tasks : List α) (L : Nat) (hL : 1 ≤ L) :
    Reachable tasks L (rcFinal tasks L) := by
  have h1 : Reachable tasks L (rcRet tasks L 0) := by
    rw [← rcRet_zero]
    exact rcMid_reachable tasks L hL tasks.length (Nat.le_refl _)
  have h2 := rcRet_reachable tasks L (min L tasks.length) (Nat.le_refl _)
  have h3 : rcRet tasks L (min L tasks.length) = rcFinal tasks L := by
    simp [rcRet, rcFinal]
  exact Relation.ReflTransGen.trans h1 (h3 ▸ h2)

/-- C1: for every task list and concurrency limit L ≥ 1, and under every
cooperative interleaving of the worker pool, runConcurrent keeps at most
min(L, n) tasks in flight, its shared result array always has one slot per
task, and once every worker loop has returned, slot i holds exactly the
outcome of task i.  Outcomes are arbitrary values, so a task whose outcome
is a failure value (such as an Except.error) fills only its own slot and
does not prevent the other tasks from completing; the fully resolved state
is reachable. -/
theorem c1_runConcurrent_bounded_pool (α : Type) (tasks : List α) (L : Nat)
    (hL : 1 ≤ L) :
    (∀ s : RCState α, Reachable tasks L s →
      inFlight s ≤ min L tasks.length ∧
      s.results.length = tasks.length ∧
      (AllDone s → s.results = tasks.map some)) ∧
    Reachable tasks L (rcFinal tasks L) := by
  refine ⟨fun s hr => ?_, rcFinal_reachable tasks L hL⟩
  have inv := reachable_inv tasks L s hr
  exact ⟨inFlight_le tasks L s inv, inv.res_len,
    fun had => allDone_results tasks L s inv hL had⟩

/-- The spec example for C1: ten independent tasks of which task #4 (index
3) fails, where failure is the outcome value the task body resolves with
after catching its own error. -/
def exTasks : List (Except String Nat) :=
  [.ok 0, .ok 1, .ok 2, .error "boom", .ok 4, .ok 5, .ok 6, .ok 7, .ok 8, .ok 9]

/-- Witness for C1 at the spec example: limit 3 over the ten tasks of
`exTasks`; in the resolved reachable state the result array has length 10,
slot 3 holds the failure outcome, every other slot holds a success
outcome, and at most min(3,10) tasks were ever in flight. -/
theorem c1_runConcurrent_bounded_pool_witness :
    Reachable exTasks 3 (rcFinal exTasks 3) ∧
    AllDone (rcFinal exTasks 3) ∧
    (rcFinal exTasks 3).results.length = 10 ∧
    inFlight (rcFinal exTasks 3) ≤ min 3 10 ∧
    (rcFinal exTasks 3).results = exTasks.map some ∧
    (rcFinal exTasks 3).results[3]? = some (some (.error "boom")) ∧
    (∀ i : Nat, i < 10 → i ≠ 3 →
      ∃ v : Nat, (rcFinal exTasks 3).results[i]? = some (some (.ok v))) := by
  have h := c1_runConcurrent_bounded_pool (Except String Nat) exTasks 3
    (by decide)
  have hreach : Reachable exTasks 3 (rcFinal exTasks 3) := h.2
  have hsafe := h.1 (rcFinal exTasks 3) hreach
  have had : AllDone (rcFinal exTasks 3) := by
    intro w hw
    simp only [rcFinal] at hw
    exact List.eq_of_mem_replicate hw
  refine ⟨hreach, had, ?_, hsafe.1, hsafe.2.2 had, by rfl, ?_⟩
  · rw [hsafe.2.1]
    rfl
  · intro i hi hne
    rw [hsafe.2.2 had]
    interval_cases i
    · exact ⟨0, rfl⟩
    · exact ⟨1, rfl⟩
    · exact ⟨2, rfl⟩
    · exact absurd rfl hne
    · exact ⟨4, rfl⟩
    · exact ⟨5, rfl⟩
    · exact ⟨6, rfl⟩
    · exact ⟨7, rfl⟩
    · exact ⟨8, rfl⟩
    · exact ⟨9, rfl⟩

end LlmJs

namespace Pipeline

/-! ## The ingestion pipeline (src/unnamed/part_003)

The script wires the normalizer, the relevance filter and the enrichment
stage together.  Its external effects (HTTP fetches, completion calls,
filesystem writes) enter the model as oracle arguments and effect traces;
the data flow itself is embedded as pure functions. -/

structure Item where
  url : String
  title : String
  date : String
  authors : String
  category : String
deriving DecidableEq, Repr

structure Paper where
  id : String
  title : String
  url : String
  arxivId : String
  date : String
  authors : String
  category : String
  summary : String
  detailedSummary : String
  imageUrls : List String
  tags : List String
  updatedAt : String
deriving DecidableEq, Repr

def SOURCE_URL : String := "https://jiangranlv.github.io/robotics_arXiv_daily/"

/-- The payload written to data/papers.json and (projected) to
data/papers-index.json. -/
structure Payload where
  generatedAt : String
  source : String
  items : List Paper
deriving DecidableEq, Repr

/-- Lookup in `new Map(existing.items.map(i => [i.url, i]))` (part_003
lines 237-239): later entries overwrite earlier ones, so the last item
with the given url wins. -/
def mapGet (items : List Paper) (url : String) : Option Paper :=
  items.reverse.find? (fun p => p.url = url)

/-- The spread `{...previous, title, date, authors, category, updatedAt}`
for a cached item (part_003 lines 249-256). -/
def refreshCached (prev : Paper) (item : Item) (t : String) : Paper :=
  { prev with
    title := item.title
    date := item.date
    authors := item.authors
    category := item.category
    updatedAt := t }

/-- The cached / toProcess split of buildOutput (part_003 lines 243-260):
an item whose previous record has both summary fields truthy (non-empty
strings) is refreshed with the new listing metadata and cached; every
other item is queued for enrichment together with its previous record. -/
def splitCached (existing : List Paper) (t : String) :
    List Item → List Paper × List (Item × Option Paper)
  | [] => ([], [])
  | item :: rest =>
    let acc := splitCached existing t rest
    match mapGet existing item.url with
    | some prev =>
      if prev.summary ≠ "" ∧ prev.detailedSummary ≠ "" then
        (refreshCached prev item t :: acc.1, acc.2)
      else (acc.1, (item, some prev) :: acc.2)
    | none => (acc.1, (item, none) :: acc.2)

/-- buildOutput builds its enrichment task closures from toProcess only
(part_003 line 285), so these urls are exactly the items for which any
abstract-page fetch, content fetch or completion-service call can happen
during the enrichment phase. -/
def submittedUrls (existing : List Paper) (t : String) (items : List Item) :
    List String :=
  ((splitCached existing t items).2).map (fun pr => pr.1.url)

/-- The sentinel stored in both summary fields when the paper has no HTML
rendering (part_003 line 302). -/
def NO_HTML_MSG : String := "目标不存在html界面，获取失败……"

/-- generateSummary (llm.js lines 163-186): with the completion service
unconfigured the deterministic title fallback is returned; otherwise the
callLLM outcome, with null (or empty, which callLLM maps to null) falling
back to the title template via `result || fallbackSummary(title)`. -/
def generateSummary (llmOn : Bool) (resp : Option String) (title : String) :
    String :=
  if llmOn then
    match resp with
    | some r => if r = "" then LlmJs.fallbackSummary title else r
    | none => LlmJs.fallbackSummary title
  else LlmJs.fallbackSummary title

/-- generateDetailedSummary (llm.js lines 190-249). -/
def generateDetailedSummary (llmOn : Bool) (resp : Option String)
    (title : String) : String :=
  if llmOn then
    match resp with
    | some r => if r = "" then LlmJs.fallbackDetailed title else r
    | none => LlmJs.fallbackDetailed title
  else LlmJs.fallbackDetailed title

/-- External effects observed by one enrichment task (part_003 lines
285-343): the outcome of the HTML-rendering-link scan on the abstract
page, the (fullText, imageUrls) content fetch, and the two callLLM
outcomes. -/
structure FetchOracle where
  htmlLink : Option String
  fullText : String
  imageUrls : List String
  llmShort : Option String
  llmLong : Option String
deriving Repr

/-- Pure body of one enrichment task (part_003 lines 285-343), with the
external effects supplied by `o`.  Returns `none` when the task throws
(the only throwing subterm is normalizeArxivId, see claim C4).  When the
abstract page has no HTML rendering link, `fullText` stays empty,
`noHtmlAvailable` is set, and both summary fields receive NO_HTML_MSG;
otherwise each summary field keeps a truthy previous value or is generated
from the fetched text. -/
def enrichItem (llmOn : Bool) (o : FetchOracle) (t : String) (item : Item)
    (previous : Option Paper) : Option Paper :=
  match ArxivJs.normalizeArxivId item.url with
  | none => none
  | some arxivId =>
    let imageUrls := match o.htmlLink with | some _ => o.imageUrls | none => []
    let noHtml := o.htmlLink.isNone
    let prevSummary := match previous with | some p => p.summary | none => ""
    let prevDetailed := match previous with | some p => p.detailedSummary | none => ""
    let summary :=
      if noHtml then NO_HTML_MSG
      else if prevSummary ≠ "" then prevSummary
      else generateSummary llmOn o.llmShort item.title
    let detailedSummary :=
      if noHtml then NO_HTML_MSG
      else if prevDetailed ≠ "" then prevDetailed
      else generateDetailedSummary llmOn o.llmLong item.title
    let tags := match previous with
      | some p => p.tags
      | none => if item.category ≠ "" then [item.category] else []
    some ⟨item.url, item.title, item.url, arxivId, item.date, item.authors,
      item.category, summary, detailedSummary, imageUrls, tags, t⟩

theorem splitCached_cached_mem (existing : List Paper) (t : String) :
    ∀ (items : List Item) (item : Item) (prev : Paper), item ∈ items →
      mapGet existing item.url = some prev →
      ¬(prev.summary = "") → ¬(prev.detailedSummary = "") →
      refreshCached prev item t ∈ (splitCached existing t items).1 := by
  intro items
  induction items with
  | nil => intro item prev h; cases h
  | cons it rest ih =>
    intro item prev hmem hget hs hd
    rcases List.mem_cons.mp hmem with he | hmem2
    · subst he
      simp only [splitCached, hget, if_pos (And.intro hs hd), reduceIte]
      exact List.mem_cons_self _ _
    · have hrec := ih item prev hmem2 hget hs hd
      simp only [splitCached]
      rcases hget2 : mapGet existing it.url with _ | prev2
      · exact hrec
      · by_cases h2 : ¬(prev2.summary = "") ∧ ¬(prev2.detailedSummary = "")
        · simp only [if_pos h2, reduceIte]
          exact List.mem_cons_of_mem _ hrec
        · simp only [if_neg h2, reduceIte]
          exact hrec

theorem splitCached_toProcess_not_enriched (existing : List Paper) (t : String) :
    ∀ (items : List Item) (pr : Item × Option Paper),
      pr ∈ (splitCached existing t items).2 →
      ∀ prev, mapGet existing pr.1.url = some prev →
        ¬(¬(prev.summary = "") ∧ ¬(prev.detailedSummary = "")) := by
  intro items
  induction items with
  | nil => intro pr h; cases h
  | cons it rest ih =>
    intro pr hmem prev hget
    simp only [splitCached] at hmem
    rcases hget2 : mapGet existing it.url with _ | prev2 <;> rw [hget2] at hmem
    · simp only at hmem
      rcases List.mem_cons.mp hmem with he | hmem2
      · subst he
        simp only at hget
        rw [hget] at hget2
        cases hget2
      · exact ih pr hmem2 prev hget
    · by_cases h2 : ¬(prev2.summary = "") ∧ ¬(prev2.detailedSummary = "")
      · simp only [if_pos h2, reduceIte] at hmem
        exact ih pr hmem prev hget
      · simp only [if_neg h2, reduceIte] at hmem
        rcases List.mem_cons.mp hmem with he | hmem2
        · subst he
          simp only at hget
          rw [hget] at hget2
          cases hget2
          exact h2
        · exact ih pr hmem2 prev hget

/-- C7: a stored record whose short and detailed summary fields are both
non-empty is treated as already enriched by buildOutput: the refreshed
record joins the cached list, no toProcess entry carries its url, and
since the enrichment tasks (the only code performing fetches and
completion-service calls in the enrichment phase) are built from toProcess
alone, the item is never re-submitted and skips extraction and
summarisation entirely. -/
theorem c7_enriched_record_skipped (existing : List Paper) (t : String)
    (items : List Item) (item : Item) (prev : Paper) (hmem : item ∈ items)
    (hprev : mapGet existing item.url = some prev)
    (hs : ¬(prev.summary = "")) (hd : ¬(prev.detailedSummary = "")) :
    refreshCached prev item t ∈ (splitCached existing t items).1 ∧
    (∀ pr ∈ (splitCached existing t items).2, ¬(pr.1.url = item.url)) ∧
    ¬(item.url ∈ submittedUrls existing t items) := by
  refine ⟨splitCached_cached_mem existing t items item prev hmem hprev hs hd,
    ?_, ?_⟩
  · intro pr hpr he
    have hget : mapGet existing pr.1.url = some prev := by rw [he]; exact hprev
    exact splitCached_toProcess_not_enriched existing t items pr hpr prev hget
      ⟨hs, hd⟩
  · intro hmem2
    rcases List.mem_map.mp hmem2 with ⟨pr, hpr, hurl⟩
    have hget : mapGet existing pr.1.url = some prev := by rw [hurl]; exact hprev
    exact splitCached_toProcess_not_enriched existing t items pr hpr prev hget
      ⟨hs, hd⟩

/-- Witness for C7 at a concrete store: the single listed item has an
enriched previous record, lands in the cached list with refreshed listing
metadata, and its url reaches neither toProcess nor the submitted set. -/
theorem c7_enriched_record_skipped_witness :
    (let prev : Paper := ⟨"https://arxiv.org/abs/2503.01078", "Old title",
      "https://arxiv.org/abs/2503.01078", "2503.01078", "2025-03-03", "A. Author",
      "Robotics", "a summary", "a detailed summary", [], ["Robotics"], "T0"⟩
     let item : Item := ⟨"https://arxiv.org/abs/2503.01078", "New title",
      "2025-03-04", "A. Author", "Robotics"⟩
     refreshCached prev item "T1" ∈ (splitCached [prev] "T1" [item]).1 ∧
     (∀ pr ∈ (splitCached [prev] "T1" [item]).2, ¬(pr.1.url = item.url)) ∧
     ¬(item.url ∈ submittedUrls [prev] "T1" [item])) := by
  exact c7_enriched_record_skipped _ "T1" _ _ _ (List.mem_cons_self _ _)
    (by decide) (by decide) (by decide)

/-- C5 counterexample: an item whose abstract page has an HTML rendering
link but whose content fetch yields no full text (fullText is the empty
string) is not given the NO_HTML_MSG sentinel: the summariser runs on the
empty text and the record holds the title-derived fallback instead, so
"content extraction yields no full text" does not imply the sentinel. -/
theorem c5_no_html_counterexample :
    ∃ p : Paper,
      enrichItem false
        ⟨some "https://arxiv.org/html/2503.01078v1", "", [], none, none⟩ "T0"
        ⟨"https://arxiv.org/abs/2503.01078", "Sample", "2025-03-03", "A. Author",
          "Robotics"⟩ none = some p ∧
      ¬(p.summary = NO_HTML_MSG) ∧ ¬(p.detailedSummary = NO_HTML_MSG) ∧
      p.summary = LlmJs.fallbackSummary "Sample" ∧
      p.detailedSummary = LlmJs.fallbackDetailed "Sample" := by
  refine ⟨_, rfl, by decide, by decide, rfl, rfl⟩

/-- C5 (amended): when the abstract page offers no HTML rendering link —
the only case part_003 treats as "no content" — both summary fields of the
produced record equal the NO_HTML_MSG sentinel, and that sentinel differs
from the title-derived LLM-failure fallbacks for every title.  If a
rendering link exists but its fetch yields empty text, the summariser runs
on the empty text instead (see the counterexample). -/
theorem c5_no_html_sentinel (llmOn : Bool) (o : FetchOracle) (t : String)
    (item : Item) (previous : Option Paper) (p : Paper)
    (hnl : o.htmlLink = none)
    (hp : enrichItem llmOn o t item previous = some p) :
    p.summary = NO_HTML_MSG ∧ p.detailedSummary = NO_HTML_MSG ∧
    (∀ title : String, ¬(NO_HTML_MSG = LlmJs.fallbackSummary title) ∧
      ¬(NO_HTML_MSG = LlmJs.fallbackDetailed title)) := by
  refine ⟨?_, ?_, ?_⟩
  · unfold enrichItem at hp
    rcases hnid : ArxivJs.normalizeArxivId item.url with _ | aid <;> rw [hnid] at hp
    · cases hp
    · simp only [hnl, Option.isNone_none, if_true, reduceIte] at hp
      cases hp
      rfl
  · unfold enrichItem at hp
    rcases hnid : ArxivJs.normalizeArxivId item.url with _ | aid <;> rw [hnid] at hp
    · cases hp
    · simp only [hnl, Option.isNone_none, if_true, reduceIte] at hp
      cases hp
      rfl
  · intro title
    constructor
    · intro h
      have h2 : NO_HTML_MSG.data.head? = (LlmJs.fallbackSummary title).data.head? := by
        rw [h]
      rw [show (LlmJs.fallbackSummary title).data.head? = some '论' from rfl] at h2
      exact absurd h2 (by decide)
    · intro h
      have h2 : NO_HTML_MSG.data.head? = (LlmJs.fallbackDetailed title).data.head? := by
        rw [h]
      rw [show (LlmJs.fallbackDetailed title).data.head? = some '#' from rfl] at h2
      exact absurd h2 (by decide)

/-- Witness for C5 (amended) at a concrete item with no HTML rendering. -/
theorem c5_no_html_sentinel_witness :
    ∃ p : Paper,
      enrichItem true ⟨none, "", [], some "llm text", some "llm long"⟩ "T0"
        ⟨"https://arxiv.org/abs/2503.01078", "Sample", "2025-03-03", "A. Author",
          "Robotics"⟩ none = some p ∧
      p.summary = NO_HTML_MSG ∧ p.detailedSummary = NO_HTML_MSG := by
  refine ⟨_, rfl, ?_⟩
  have h := c5_no_html_sentinel true
    ⟨none, "", [], some "llm text", some "llm long"⟩ "T0"
    ⟨"https://arxiv.org/abs/2503.01078", "Sample", "2025-03-03", "A. Author",
      "Robotics"⟩ none _ rfl rfl
  exact ⟨h.1, h.2.1⟩

/-! ## Relevance-cache handling in main (part_003 lines 449-505) -/

/-- The relevance cache document data/filter_cache.json. -/
structure Cache where
  kept : List String
  rejected : List String
deriving DecidableEq, Repr

/-- Phase-2 split of main (part_003 lines 466-476): an item already in the
store or in the kept set is kept without filtering; an item in the
rejected set is skipped; everything else is new and goes to the filter. -/
def splitKnown (existingUrls : List String) (cache : Cache) :
    List Item → List Item × List Item
  | [] => ([], [])
  | item :: rest =>
    let acc := splitKnown existingUrls cache rest
    if existingUrls.contains item.url || cache.kept.contains item.url then
      (item :: acc.1, acc.2)
    else if cache.rejected.contains item.url then acc
    else (acc.1, item :: acc.2)

/-- Insertion-order deduplication, as performed by spreading a JS Set. -/
def jsDedup : List String → List String
  | [] => []
  | x :: xs => x :: jsDedup (xs.filter (fun y => y ≠ x))
termination_by l => l.length
decreasing_by
  simp only [List.length_cons]
  exact Nat.lt_succ_of_le (List.length_filter_le _ _)

/-- The cache update after filtering (part_003 lines 486-494), performed
only when there were new items to filter. -/
def updateCache (cache : Cache) (newItems newlyKept : List Item) : Cache :=
  if newItems.isEmpty then cache
  else
    let newlyKeptUrls := jsDedup (newlyKept.map (fun i => i.url))
    { kept := jsDedup (cache.kept ++ newlyKeptUrls),
      rejected := jsDedup (cache.rejected ++
        (newItems.filter (fun i => !newlyKeptUrls.contains i.url)).map
          (fun i => i.url)) }

theorem jsDedup_mem : ∀ (l : List String) (x : String), x ∈ jsDedup l ↔ x ∈ l
  | [], x => by simp [jsDedup]
  | y :: ys, x => by
    rw [jsDedup]
    by_cases he : x = y
    · subst he
      simp
    · simp only [List.mem_cons, he, false_or]
      rw [jsDedup_mem (ys.filter (fun z => z ≠ y)) x]
      simp [List.mem_filter, he]
termination_by l _ => l.length
decreasing_by
  simp only [List.length_cons]
  exact Nat.lt_succ_of_le (List.length_filter_le _ _)

theorem splitKnown_new_unknown (existingUrls : List String) (cache : Cache) :
    ∀ (items : List Item) (i : Item),
      i ∈ (splitKnown existingUrls cache items).2 →
      ¬(i.url ∈ existingUrls) ∧ ¬(i.url ∈ cache.kept) ∧
        ¬(i.url ∈ cache.rejected) := by
  intro items
  induction items with
  | nil => intro i h; cases h
  | cons it rest ih =>
    intro i hmem
    simp only [splitKnown] at hmem
    rcases hcond : (existingUrls.contains it.url || cache.kept.contains it.url)
      with _ | _ <;> rw [hcond] at hmem
    · rcases hrej : cache.rejected.contains it.url with _ | _ <;>
        rw [hrej] at hmem
      · simp only [Bool.false_eq_true, if_false, reduceIte] at hmem
        rcases List.mem_cons.mp hmem with he | hmem2
        · subst he
          rw [Bool.or_eq_false_iff] at hcond
          refine ⟨?_, ?_, ?_⟩
          · intro hx
            rw [show existingUrls.contains i.url = true by
              simpa using hx] at hcond
            cases hcond.1
          · intro hx
            rw [show cache.kept.contains i.url = true by simpa using hx] at hcond
            cases hcond.2
          · intro hx
            rw [show cache.rejected.contains i.url = true by simpa using hx] at hrej
            cases hrej
        · exact ih i hmem2
      · simp only [if_true, reduceIte] at hmem
        exact ih i hmem
    · simp only [if_true, reduceIte] at hmem
      exact ih i hmem

theorem splitKnown_already_known (existingUrls : List String) (cache : Cache) :
    ∀ (items : List Item) (i : Item),
      i ∈ (splitKnown existingUrls cache items).1 →
      i.url ∈ existingUrls ∨ i.url ∈ cache.kept := by
  intro items
  induction items with
  | nil => intro i h; cases h
  | cons it rest ih =>
    intro i hmem
    simp only [splitKnown] at hmem
    rcases hcond : (existingUrls.contains it.url || cache.kept.contains it.url)
      with _ | _ <;> rw [hcond] at hmem
    · rcases hrej : cache.rejected.contains it.url with _ | _ <;>
        rw [hrej] at hmem
      · simp only [Bool.false_eq_true, if_false, reduceIte] at hmem
        exact ih i hmem
      · simp only [if_true, reduceIte] at hmem
        exact ih i hmem
    · simp only [if_true, reduceIte] at hmem
      rcases List.mem_cons.mp hmem with he | hmem2
      · subst he
        rw [Bool.or_eq_true] at hcond
        rcases hcond with hx | hx
        · exact Or.inl (by simpa using hx)
        · exact Or.inr (by simpa using hx)
      · exact ih i hmem2

theorem contains_true_iff (l : List String) (a : String) :
    l.contains a = true ↔ a ∈ l := by
  rw [List.contains_eq_any_beq]
  simp

/-- C9: one filtering run maps the loaded cache to
`updateCache cache newItems newlyKept`, where `newItems` is the unknown
part of the listing and `newlyKept = filterByRelevance llmOn newItems resp`.
If the loaded kept and rejected sets are disjoint, the updated sets are
disjoint as well; and a reference in the rejected set that is not in the
store is excluded from the already-kept items, from the newly kept items
and from every filter batch (so no completion-service call carries it),
and stays outside the updated kept set. -/
theorem c9_cache_disjoint_and_rejected_skip
    (existingUrls : List String) (cache : Cache) (allItems : List Item)
    (llmOn : Bool) (resp : Nat → Option String)
    (hdisj : ∀ u, u ∈ cache.kept → ¬(u ∈ cache.rejected)) :
    (∀ u, u ∈ (updateCache cache (splitKnown existingUrls cache allItems).2
        (LlmJs.filterByRelevance llmOn
          (splitKnown existingUrls cache allItems).2 resp)).kept →
      ¬(u ∈ (updateCache cache (splitKnown existingUrls cache allItems).2
        (LlmJs.filterByRelevance llmOn
          (splitKnown existingUrls cache allItems).2 resp)).rejected)) ∧
    (∀ r, r ∈ cache.rejected → ¬(r ∈ existingUrls) →
      (∀ i ∈ (splitKnown existingUrls cache allItems).1, ¬(i.url = r)) ∧
      (∀ i ∈ LlmJs.filterByRelevance llmOn
          (splitKnown existingUrls cache allItems).2 resp, ¬(i.url = r)) ∧
      (∀ b ∈ LlmJs.mkBatches (splitKnown existingUrls cache allItems).2,
        ∀ i ∈ b, ¬(i.url = r)) ∧
      ¬(r ∈ (updateCache cache (splitKnown existingUrls cache allItems).2
        (LlmJs.filterByRelevance llmOn
          (splitKnown existingUrls cache allItems).2 resp)).kept)) := by
  have hNK : ∀ i, i ∈ LlmJs.filterByRelevance llmOn
      (splitKnown existingUrls cache allItems).2 resp →
      i ∈ (splitKnown existingUrls cache allItems).2 :=
    LlmJs.filterByRelevance_subset llmOn _ resp
  have hnew := splitKnown_new_unknown existingUrls cache allItems
  constructor
  · intro u hu hr
    unfold updateCache at hu hr
    by_cases hni : ((splitKnown existingUrls cache allItems).2).isEmpty
    · rw [if_pos hni] at hu hr
      exact hdisj u hu hr
    · rw [if_neg hni] at hu hr
      simp only at hu hr
      rw [jsDedup_mem, List.mem_append, jsDedup_mem, List.mem_map] at hu
      rw [jsDedup_mem, List.mem_append, List.mem_map] at hr
      rcases hu with hu | ⟨i, hiNK, hiu⟩
      · rcases hr with hr | ⟨j, hjf, hju⟩
        · exact hdisj u hu hr
        · rcases List.mem_filter.mp hjf with ⟨hjNI, _⟩
          exact (hnew j hjNI).2.1 (hju ▸ hu)
      · rcases hr with hr | ⟨j, hjf, hju⟩
        · exact (hnew i (hNK i hiNK)).2.2 (hiu ▸ hr)
        · rcases List.mem_filter.mp hjf with ⟨_, hjpred⟩
          rw [Bool.not_eq_eq_eq_not, Bool.not_true] at hjpred
          have hmemNK : j.url ∈ jsDedup ((LlmJs.filterByRelevance llmOn
              (splitKnown existingUrls cache allItems).2 resp).map
              (fun i2 => i2.url)) := by
            rw [jsDedup_mem, List.mem_map]
            exact ⟨i, hiNK, by rw [hiu, hju]⟩
          rw [← contains_true_iff] at hmemNK
          rw [hmemNK] at hjpred
          cases hjpred
  · intro r hrej hre
    have hb : ∀ i, i ∈ LlmJs.filterByRelevance llmOn
        (splitKnown existingUrls cache allItems).2 resp → ¬(i.url = r) := by
      intro i hi he
      exact (hnew i (hNK i hi)).2.2 (he ▸ hrej)
    refine ⟨?_, hb, ?_, ?_⟩
    · intro i hi he
      rcases splitKnown_already_known existingUrls cache allItems i hi with hx | hx
      · exact hre (he ▸ hx)
      · exact hdisj i.url hx (he ▸ hrej)
    · intro b hbm i hib he
      have hiNI : i ∈ (splitKnown existingUrls cache allItems).2 := by
        rw [← LlmJs.mkBatches_flatten ((splitKnown existingUrls cache allItems).2)]
        exact List.mem_flatten.mpr ⟨b, hbm, hib⟩
      exact (hnew i hiNI).2.2 (he ▸ hrej)
    · intro hk
      unfold updateCache at hk
      by_cases hni : ((splitKnown existingUrls cache allItems).2).isEmpty
      · rw [if_pos hni] at hk
        exact hdisj r hk hrej
      · rw [if_neg hni] at hk
        simp only at hk
        rw [jsDedup_mem, List.mem_append, jsDedup_mem, List.mem_map] at hk
        rcases hk with hk | ⟨i, hiNK, hiu⟩
        · exact hdisj r hk hrej
        · exact hb i hiNK hiu

/-- Witness for C9 at a concrete state: one previously rejected listing
item, a disjoint loaded cache, and a filter oracle that is never
consulted. -/
theorem c9_cache_disjoint_and_rejected_skip_witness :
    (let cache : Cache := ⟨["https://arxiv.org/abs/2503.01078"],
      ["https://arxiv.org/abs/2401.00001"]⟩
     let allItems : List Item := [⟨"https://arxiv.org/abs/2401.00001", "Rejected",
      "2024-01-01", "B", "cs.RO"⟩]
     (∀ u, u ∈ (updateCache cache (splitKnown [] cache allItems).2
        (LlmJs.filterByRelevance true (splitKnown [] cache allItems).2
          (fun _ => none))).kept →
      ¬(u ∈ (updateCache cache (splitKnown [] cache allItems).2
        (LlmJs.filterByRelevance true (splitKnown [] cache allItems).2
          (fun _ => none))).rejected)) ∧
     (∀ i ∈ (splitKnown [] cache allItems).1,
        ¬(i.url = "https://arxiv.org/abs/2401.00001")) ∧
     (∀ b ∈ LlmJs.mkBatches (splitKnown [] cache allItems).2, ∀ i ∈ b,
        ¬(i.url = "https://arxiv.org/abs/2401.00001"))) := by
  have h := c9_cache_disjoint_and_rejected_skip []
    ⟨["https://arxiv.org/abs/2503.01078"], ["https://arxiv.org/abs/2401.00001"]⟩
    [⟨"https://arxiv.org/abs/2401.00001", "Rejected", "2024-01-01", "B", "cs.RO"⟩]
    true (fun _ => none) (by decide)
  have h2 := h.2 "https://arxiv.org/abs/2401.00001" (by decide) (by decide)
  exact ⟨h.1, h2.1, h2.2.2.1⟩

/-! ## Timing of the relevance-cache write (claim C6)

llm.js does not import or use any filesystem API, so filterByRelevance
performs only the per-batch completion calls; main writes
data/filter_cache.json exactly once, at part_003 line 504, after
filterByRelevance has returned.  The filtering phase of a run whose
new-item list forms `b` batches is therefore the trace below.  Concurrent
batch completion may permute the llmBatch events among themselves, but
every interleaving has the same event multiset and keeps the single
cacheWrite after all batch events, and the counted quantities below depend
only on that, so the canonical order is used. -/

inductive FilterEv where
  | llmBatch : Nat → FilterEv
  | cacheWrite : FilterEv
deriving DecidableEq, Repr

/-- Effect trace of the filtering phase of main: the `b` completion calls
issued by filterByRelevance, then the one cache write. -/
def filterPhaseTrace (b : Nat) : List FilterEv :=
  (List.range b).map FilterEv.llmBatch ++ [FilterEv.cacheWrite]

/-- Folding step tracking (batches completed so far, batches persisted by
the most recent cache write). -/
def persistStep (st : Nat × Nat) (e : FilterEv) : Nat × Nat :=
  match e with
  | FilterEv.llmBatch _ => (st.1 + 1, st.2)
  | FilterEv.cacheWrite => (st.1, st.1)

/-- Batch decisions durable on disk when the process dies right after the
given trace prefix: those completed before the last cache write of the
prefix (a write persists every decision made so far). -/
def persistedCount (tr : List FilterEv) : Nat :=
  (tr.foldl persistStep (0, 0)).2

/-- Batches whose completion call has finished within the prefix. -/
def completedCount (tr : List FilterEv) : Nat :=
  tr.countP (fun e => match e with | FilterEv.llmBatch _ => true | _ => false)

theorem persistStep_foldl_no_write :
    ∀ (tr : List FilterEv) (a c : Nat),
      (∀ e ∈ tr, ¬(e = FilterEv.cacheWrite)) →
      tr.foldl persistStep (a, c) = (a + completedCount tr, c)
  | [], a, c, _ => by simp [completedCount]
  | e :: tr, a, c, h => by
    rcases e with i | _
    · simp only [List.foldl_cons, persistStep]
      rw [persistStep_foldl_no_write tr (a + 1) c
        (fun e he => h e (List.mem_cons_of_mem _ he))]
      simp only [completedCount, List.countP_cons, Prod.mk.injEq]
      constructor
      · simp only [if_true, reduceIte]
        omega
      · trivial
    · exact absurd rfl (h _ (List.mem_cons_self _ _))

theorem completedCount_batches (l : List Nat) :
    completedCount (l.map FilterEv.llmBatch) = l.length := by
  unfold completedCount
  rw [List.countP_map]
  simp [Function.comp]

theorem filterPhaseTrace_counts (b : Nat) :
    completedCount (filterPhaseTrace b) = b ∧
    (filterPhaseTrace b).countP
      (fun e => match e with | FilterEv.cacheWrite => true | _ => false) = 1 ∧
    persistedCount (filterPhaseTrace b) = b := by
  refine ⟨?_, ?_, ?_⟩
  · unfold filterPhaseTrace completedCount
    rw [List.countP_append]
    have h1 := completedCount_batches (List.range b)
    unfold completedCount at h1
    rw [h1, List.length_range]
    rfl
  · unfold filterPhaseTrace
    rw [List.countP_append, List.countP_map]
    simp [Function.comp]
  · unfold filterPhaseTrace persistedCount
    rw [List.foldl_append,
      persistStep_foldl_no_write ((List.range b).map FilterEv.llmBatch) 0 0
        (by
          intro e he
          rcases List.mem_map.mp he with ⟨i, _, hei⟩
          rw [← hei]
          intro hx
          cases hx)]
    rw [completedCount_batches, List.length_range]
    simp [persistStep]

theorem prefix_with_write_is_whole (b : Nat) (pre suf : List FilterEv)
    (hps : pre ++ suf = filterPhaseTrace b)
    (hw : FilterEv.cacheWrite ∈ pre) :
    pre = filterPhaseTrace b ∧ suf = [] := by
  have hnol : ¬(FilterEv.cacheWrite ∈ (List.range b).map FilterEv.llmBatch) := by
    intro hx
    rcases List.mem_map.mp hx with ⟨i, _, hei⟩
    cases hei
  unfold filterPhaseTrace at hps
  rcases List.append_eq_append_iff.mp hps with ⟨a, ha1, _⟩ | ⟨c, hc1, hc2⟩
  · exact absurd (ha1 ▸ List.mem_append_left a hw) hnol
  · rcases c with _ | ⟨x, cs⟩
    · rw [List.append_nil] at hc1
      exact absurd (hc1 ▸ hw) hnol
    · rw [List.cons_append] at hc2
      injection hc2 with hx hrest
      rcases List.append_eq_nil.mp hrest.symm with ⟨hcs, hsuf⟩
      subst hcs
      subst hsuf
      subst hx
      refine ⟨?_, rfl⟩
      rw [hc1]
      rfl

/-- C6 (amended): data/filter_cache.json is written exactly once per run,
after the whole filtering phase: a crash prefix that contains the write
has every one of the run's `b` batch decisions persisted, while a crash
prefix without the write (in particular any crash point during filtering)
has none of them persisted — the run loses all of its completed batches,
not just the in-flight one. -/
theorem c6_cache_written_once_after_filtering (b : Nat) :
    (completedCount (filterPhaseTrace b) = b ∧
     (filterPhaseTrace b).countP
       (fun e => match e with | FilterEv.cacheWrite => true | _ => false) = 1 ∧
     persistedCount (filterPhaseTrace b) = b) ∧
    (∀ pre suf, pre ++ suf = filterPhaseTrace b →
      (FilterEv.cacheWrite ∈ pre →
        persistedCount pre = completedCount pre ∧ completedCount pre = b) ∧
      (¬(FilterEv.cacheWrite ∈ pre) → persistedCount pre = 0)) := by
  refine ⟨filterPhaseTrace_counts b, ?_⟩
  intro pre suf hps
  constructor
  · intro hw
    rcases prefix_with_write_is_whole b pre suf hps hw with ⟨hpre, _⟩
    subst hpre
    rcases filterPhaseTrace_counts b with ⟨h1, _, h3⟩
    exact ⟨by rw [h1, h3], h1⟩
  · intro hnw
    have hall : ∀ e ∈ pre, ¬(e = FilterEv.cacheWrite) := by
      intro e he hx
      exact hnw (hx ▸ he)
    unfold persistedCount
    rw [persistStep_foldl_no_write pre 0 0 hall]

/-- Witness for C6 (amended) at b = 2. -/
theorem c6_cache_written_once_after_filtering_witness :
    persistedCount (filterPhaseTrace 2) = 2 ∧
    persistedCount [FilterEv.llmBatch 0, FilterEv.llmBatch 1] = 0 := by
  have h := c6_cache_written_once_after_filtering 2
  refine ⟨h.1.2.2, ?_⟩
  exact (h.2 [FilterEv.llmBatch 0, FilterEv.llmBatch 1] [FilterEv.cacheWrite]
    (by decide)).2 (by decide)

/-- C6 counterexample: with 41 new items the filter forms two batches; the
trace [llmBatch 0, llmBatch 1, cacheWrite] is a possible execution of the
filtering phase, and at the crash point right after both batch calls and
before the single write, two completed batches are lost — more than the
one in-flight batch the claim permits, so the cache is not persisted after
each filter batch. -/
theorem c6_not_persisted_per_batch_counterexample :
    (LlmJs.mkBatches (List.replicate 41
      (⟨"https://arxiv.org/abs/2503.01078", "T", "d", "a", "c"⟩ : Item))).length = 2 ∧
    filterPhaseTrace 2 =
      [FilterEv.llmBatch 0, FilterEv.llmBatch 1, FilterEv.cacheWrite] ∧
    ([FilterEv.llmBatch 0, FilterEv.llmBatch 1] ++ [FilterEv.cacheWrite] =
      filterPhaseTrace 2) ∧
    completedCount [FilterEv.llmBatch 0, FilterEv.llmBatch 1] = 2 ∧
    persistedCount [FilterEv.llmBatch 0, FilterEv.llmBatch 1] = 0 ∧
    ¬(completedCount [FilterEv.llmBatch 0, FilterEv.llmBatch 1] -
        persistedCount [FilterEv.llmBatch 0, FilterEv.llmBatch 1] ≤ 1) := by
  refine ⟨?_, by decide, by decide, by decide, by decide, by decide⟩
  rw [show List.replicate 41 (⟨"https://arxiv.org/abs/2503.01078", "T", "d", "a",
      "c"⟩ : Item) = (⟨"https://arxiv.org/abs/2503.01078", "T", "d", "a", "c"⟩ : Item)
      :: List.replicate 40 (⟨"https://arxiv.org/abs/2503.01078", "T", "d", "a",
      "c"⟩ : Item) from rfl]
  rw [LlmJs.mkBatches, List.take_replicate, List.drop_replicate]
  rw [show (40 : Nat) - 39 = 1 from rfl,
    show List.replicate 1 (⟨"https://arxiv.org/abs/2503.01078", "T", "d", "a",
      "c"⟩ : Item) = [⟨"https://arxiv.org/abs/2503.01078", "T", "d", "a", "c"⟩] from rfl,
    LlmJs.mkBatches_small _ _ (by simp)]
  rfl

/-! ## Snapshot serialisation and the second-run comparison (claim C2)

papers.json is written with JSON.stringify(payload, null, 2) (part_003
lines 269-270 and 519) and papers-index.json with compact JSON.stringify
(lines 364-367).  The printers below reproduce those byte formats for the
fixed payload shape; object keys follow the object literals in the
source. -/

def hexDigit (n : Nat) : Char :=
  if n < 10 then Char.ofNat (48 + n) else Char.ofNat (97 + n - 10)

/-- JSON.stringify escaping for one character inside a string literal. -/
def jsonEscapeChar (c : Char) : List Char :=
  if c = '"' then ['\\', '"']
  else if c = '\\' then ['\\', '\\']
  else if c = '\n' then ['\\', 'n']
  else if c = '\r' then ['\\', 'r']
  else if c = '\t' then ['\\', 't']
  else if c = '\x08' then ['\\', 'b']
  else if c = '\x0c' then ['\\', 'f']
  else if c.toNat < 0x20 then
    ['\\', 'u', '0', '0', hexDigit (c.toNat / 16), hexDigit (c.toNat % 16)]
  else [c]

/-- A JSON string literal. -/
def jstr (s : String) : String :=
  "\"" ++ String.mk ((s.data.map jsonEscapeChar).flatten) ++ "\""

/-- Compact JSON array of strings. -/
def strArr (xs : List String) : String :=
  "[" ++ String.intercalate "," (xs.map jstr) ++ "]"

/-- One item of the index projection (part_003 lines 352-362), in compact
JSON.  The key order follows the object literal in saveIndex. -/
def indexItemJson (p : Paper) : String :=
  "\x7b\"id\":" ++ jstr p.id ++
  ",\"title\":" ++ jstr p.title ++
  ",\"arxivId\":" ++ jstr p.arxivId ++
  ",\"date\":" ++ jstr p.date ++
  ",\"authors\":" ++ jstr p.authors ++
  ",\"category\":" ++ jstr p.category ++
  ",\"summary\":" ++ jstr p.summary ++
  ",\"tags\":" ++ strArr p.tags ++
  ",\"updatedAt\":" ++ jstr p.updatedAt ++ "\x7d"

/-- Bytes of data/papers-index.json (saveIndex, part_003 lines 351-368). -/
def indexJson (payload : Payload) : String :=
  "\x7b\"generatedAt\":" ++ jstr payload.generatedAt ++
  ",\"source\":" ++ jstr payload.source ++
  ",\"items\":[" ++ String.intercalate "," (payload.items.map indexItemJson) ++
  "]\x7d"

/-- Pretty-printed JSON array of strings at the given indentation. -/
def strArrPretty (ind : String) (xs : List String) : String :=
  if xs.isEmpty then "[]"
  else "[\n" ++
    String.intercalate ",\n" (xs.map (fun x => ind ++ "  " ++ jstr x)) ++
    "\n" ++ ind ++ "]"

/-- One PaperRecord in papers.json, two levels deep (the key order follows
the object literal at part_003 lines 314-327). -/
def paperJsonPretty (p : Paper) : String :=
  "\x7b\n" ++ String.intercalate ",\n"
    ["      \"id\": " ++ jstr p.id,
     "      \"title\": " ++ jstr p.title,
     "      \"url\": " ++ jstr p.url,
     "      \"arxivId\": " ++ jstr p.arxivId,
     "      \"date\": " ++ jstr p.date,
     "      \"authors\": " ++ jstr p.authors,
     "      \"category\": " ++ jstr p.category,
     "      \"summary\": " ++ jstr p.summary,
     "      \"detailedSummary\": " ++ jstr p.detailedSummary,
     "      \"imageUrls\": " ++ strArrPretty "      " p.imageUrls,
     "      \"tags\": " ++ strArrPretty "      " p.tags,
     "      \"updatedAt\": " ++ jstr p.updatedAt] ++
  "\n    \x7d"

/-- Bytes of data/papers.json: JSON.stringify(payload, null, 2). -/
def papersJson (payload : Payload) : String :=
  "\x7b\n  \"generatedAt\": " ++ jstr payload.generatedAt ++
  ",\n  \"source\": " ++ jstr payload.source ++
  ",\n  \"items\": " ++
  (if payload.items.isEmpty then "[]"
   else "[\n" ++ String.intercalate ",\n"
      (payload.items.map (fun p => "    " ++ paperJsonPretty p)) ++ "\n  ]") ++
  "\n\x7d"

/-- One full pipeline run in the regime that claim C2 compares: every
listed item already known and enriched, nothing new to filter or enrich.
Follows main (part_003 lines 436-522): the phase-2 split against the
store and cache, the unchanged cache (no update, then the unconditional
write-back), buildOutput over the kept items — all served from cache —
and the merge of stored papers that are no longer on the source page.
Returns `none` if the run would have to filter or enrich anything (those
regimes carry external effects and are modelled separately). -/
def runCachedPipeline (allItems : List Item) (existing : List Paper)
    (cache : Cache) (t : String) : Option (Payload × Cache) :=
  let split := splitKnown (existing.map (fun p => p.url)) cache allItems
  if ¬(split.2 = []) then none
  else
    let sc := splitCached existing t split.1
    if ¬(sc.2 = []) then none
    else
      let currentUrls := split.1.map (fun i => i.url)
      let old := existing.filter
        (fun p => !currentUrls.contains (if p.url ≠ "" then p.url else p.id))
      some (⟨t, SOURCE_URL, sc.1 ++ old⟩, cache)

/-- C2 counterexample: over an unchanged one-item source listing, an
unchanged relevance cache, and a store in which the item is already
enriched, the first run (at clock reading T1) and the second run (at clock
reading T2, the run necessarily happening later) produce papers.json and
papers-index.json bytes that differ — new Date().toISOString() is embedded
as generatedAt and as every item's updatedAt, so the second run is not
byte-identical to the first. -/
theorem c2_not_byte_identical_counterexample :
    (let item : Item := ⟨"https://arxiv.org/abs/2503.01078", "Sample",
      "2025-03-03", "A. Author", "Robotics"⟩
     let p0 : Paper := ⟨"https://arxiv.org/abs/2503.01078", "Sample",
      "https://arxiv.org/abs/2503.01078", "2503.01078", "2025-03-03", "A. Author",
      "Robotics", "a summary", "a detailed summary", [], ["Robotics"], "T0"⟩
     ∃ P1 P2 : Payload,
       runCachedPipeline [item] [p0] ⟨[], []⟩ "2025-03-04T01:00:00.000Z" =
         some (P1, ⟨[], []⟩) ∧
       runCachedPipeline [item] P1.items ⟨[], []⟩ "2025-03-05T01:00:00.000Z" =
         some (P2, ⟨[], []⟩) ∧
       ¬(papersJson P2 = papersJson P1) ∧
       ¬(indexJson P2 = indexJson P1)) := by
  refine ⟨_, _, rfl, rfl, by decide, by decide⟩

def dummyPaper : Paper := ⟨"", "", "", "", "", "", "", "", "", [], [], ""⟩

theorem mapGet_url (l : List Paper) (u : String) (p : Paper)
    (h : mapGet l u = some p) : p.url = u := by
  unfold mapGet at h
  have h2 := List.find?_some h
  simpa using h2

theorem mapGet_append (l1 l2 : List Paper) (u : String) :
    mapGet (l1 ++ l2) u = (mapGet l2 u).or (mapGet l1 u) := by
  unfold mapGet
  rw [List.reverse_append, List.find?_append]

theorem mapGet_eq_none_iff (l : List Paper) (u : String) :
    mapGet l u = none ↔ ∀ p ∈ l, ¬(p.url = u) := by
  unfold mapGet
  rw [List.find?_eq_none]
  constructor
  · intro h p hp
    have := h p (List.mem_reverse.mpr hp)
    simpa using this
  · intro h p hp
    have := h p (List.mem_reverse.mp hp)
    simpa using this

theorem mapGet_cons (x : Paper) (l : List Paper) (u : String) :
    mapGet (x :: l) u =
      (mapGet l u).or (if x.url = u then some x else none) := by
  have h : (x :: l) = [x] ++ l := rfl
  rw [h, mapGet_append]
  unfold mapGet
  simp only [List.reverse_cons, List.reverse_nil, List.nil_append,
    List.find?_singleton]
  by_cases hx : x.url = u
  · simp [hx]
  · simp [hx]

/-- An item whose previous record is present and fully enriched. -/
def enrichedIn (existing : List Paper) (it : Item) : Prop :=
  ∃ prev, mapGet existing it.url = some prev ∧
    ¬(prev.summary = "") ∧ ¬(prev.detailedSummary = "")

theorem splitCached_all_enriched (existing : List Paper) (t : String) :
    ∀ items : List Item, (∀ it ∈ items, enrichedIn existing it) →
      splitCached existing t items =
        (items.map (fun it =>
          refreshCached ((mapGet existing it.url).getD dummyPaper) it t), []) := by
  intro items
  induction items with
  | nil => intro _; rfl
  | cons it rest ih =>
    intro h
    rcases h it (List.mem_cons_self _ _) with ⟨prev, hget, hs, hd⟩
    simp only [splitCached, ih (fun x hx => h x (List.mem_cons_of_mem _ hx)),
      hget, if_pos (And.intro hs hd), reduceIte, List.map_cons, Option.getD_some]

theorem splitCached_nil_enriched (existing : List Paper) (t : String) :
    ∀ items : List Item, (splitCached existing t items).2 = [] →
      ∀ it ∈ items, enrichedIn existing it := by
  intro items
  induction items with
  | nil => intro _ it h; cases h
  | cons it0 rest ih =>
    intro hnil it hmem
    simp only [splitCached] at hnil
    split at hnil
    · rename_i prev heq
      split at hnil
      · rename_i hcond
        dsimp only at hnil
        rcases List.mem_cons.mp hmem with he | hmem2
        · subst he
          exact ⟨prev, heq, hcond⟩
        · exact ih hnil it hmem2
      · dsimp only at hnil
        exact absurd hnil (List.cons_ne_nil _ _)
    · dsimp only at hnil
      exact absurd hnil (List.cons_ne_nil _ _)

theorem splitKnown_fst_sublist (E : List String) (cache : Cache) :
    ∀ items : List Item,
      List.Sublist (splitKnown E cache items).1 items := by
  intro items
  induction items with
  | nil => exact List.Sublist.refl _
  | cons it rest ih =>
    simp only [splitKnown]
    rcases hc : (E.contains it.url || cache.kept.contains it.url) with _ | _
    · rcases hr : cache.rejected.contains it.url with _ | _
      · simp only [Bool.false_eq_true, if_false, reduceIte]
        exact List.Sublist.cons _ ih
      · simp only [if_true, reduceIte]
        exact List.Sublist.cons _ ih
    · simp only [if_true, reduceIte]
      exact List.Sublist.cons₂ _ ih

theorem splitKnown_congr (E1 E2 : List String) (cache : Cache) :
    ∀ items : List Item,
      (∀ i ∈ items,
        (E1.contains i.url || cache.kept.contains i.url) =
        (E2.contains i.url || cache.kept.contains i.url)) →
      splitKnown E2 cache items = splitKnown E1 cache items := by
  intro items
  induction items with
  | nil => intro _; rfl
  | cons it rest ih =>
    intro h
    have hr := ih (fun x hx => h x (List.mem_cons_of_mem _ hx))
    have h0 := h it (List.mem_cons_self _ _)
    simp only [splitKnown, hr, ← h0]

theorem mapGet_map_of_nodup (F : Item → Paper) :
    ∀ items : List Item, (∀ a ∈ items, (F a).url = a.url) →
      (items.map (fun i => i.url)).Nodup →
      ∀ it ∈ items, mapGet (items.map F) it.url = some (F it) := by
  intro items
  induction items with
  | nil => intro _ _ it h; cases h
  | cons a rest ih =>
    intro hF hnd it hmem
    simp only [List.map_cons, List.nodup_cons] at hnd
    rw [List.map_cons,
      show (F a :: rest.map F) = [F a] ++ rest.map F from rfl, mapGet_append]
    rcases List.mem_cons.mp hmem with he | hmem2
    · subst he
      have hnone : mapGet (rest.map F) it.url = none := by
        rw [mapGet_eq_none_iff]
        intro p hp hup
        rcases List.mem_map.mp hp with ⟨b, hb, hbp⟩
        have : b.url = it.url := by
          rw [← hbp] at hup
          rw [← hup, hF b (List.mem_cons_of_mem _ hb)]
        exact hnd.1 (this ▸ List.mem_map_of_mem (fun i => i.url) hb)
      rw [hnone, Option.none_or]
      unfold mapGet
      simp [hF it (List.mem_cons_self _ _)]
    · rw [ih (fun x hx => hF x (List.mem_cons_of_mem _ hx)) hnd.2 it hmem2]
      rfl

theorem mapGet_mem (l : List Paper) (u : String) (p : Paper)
    (h : mapGet l u = some p) : p ∈ l := by
  unfold mapGet at h
  exact List.mem_reverse.mp (List.mem_of_find?_eq_some h)

theorem splitKnown_mem_fst (E : List String) (cache : Cache) :
    ∀ items : List Item, ∀ i ∈ items,
      (E.contains i.url || cache.kept.contains i.url) = true →
      i ∈ (splitKnown E cache items).1 := by
  intro items
  induction items with
  | nil => intro i h; cases h
  | cons a rest ih =>
    intro i hmem hc
    simp only [splitKnown]
    rcases List.mem_cons.mp hmem with he | hmem2
    · subst he
      rw [if_pos hc]
      exact List.mem_cons_self _ _
    · have hr := ih i hmem2 hc
      split
      · exact List.mem_cons_of_mem _ hr
      · split
        · exact hr
        · exact hr

theorem refreshCached_refreshCached (p : Paper) (it : Item) (t1 t2 : String) :
    refreshCached (refreshCached p it t1) it t2 =
      { refreshCached p it t1 with updatedAt := t2 } := by
  cases p
  rfl

theorem runCachedPipeline_eq (allItems : List Item) (existing : List Paper)
    (cache : Cache) (t : String)
    (h1 : (splitKnown (existing.map (fun p => p.url)) cache allItems).2 = [])
    (h2 : (splitCached existing t
      (splitKnown (existing.map (fun p => p.url)) cache allItems).1).2 = []) :
    runCachedPipeline allItems existing cache t =
      some (⟨t, SOURCE_URL,
        (splitCached existing t
          (splitKnown (existing.map (fun p => p.url)) cache allItems).1).1 ++
        existing.filter (fun p =>
          !((splitKnown (existing.map (fun p => p.url)) cache allItems).1.map
              (fun i => i.url)).contains (if p.url ≠ "" then p.url else p.id))⟩,
        cache) := by
  simp only [runCachedPipeline]
  rw [if_neg (not_not_intro h1), if_neg (not_not_intro h2)]

/-- C2 (amended): over an unchanged source listing whose item urls are
distinct and non-empty, and an unchanged relevance cache, a run that was
served entirely from the store succeeds again when repeated on its own
output: the cache is returned unchanged, the new payload carries the new
clock reading as generatedAt, its items list is the first payload's items
list with the refreshed (currently-listed) items' updatedAt replaced by
the new reading and the carried-over old papers kept verbatim, and with
an equal clock reading the two payloads — and hence the papers.json and
papers-index.json byte strings — coincide exactly. -/
theorem c2_second_run_identical_up_to_timestamps
    (allItems : List Item) (existing : List Paper) (cache : Cache)
    (t1 t2 : String) (P1 : Payload)
    (hnodup : (allItems.map (fun i => i.url)).Nodup)
    (hurl : ∀ i ∈ allItems, ¬(i.url = ""))
    (hrun1 : runCachedPipeline allItems existing cache t1 = some (P1, cache)) :
    ∃ (P2 : Payload) (front back : List Paper),
      runCachedPipeline allItems P1.items cache t2 = some (P2, cache) ∧
      P2.generatedAt = t2 ∧
      P2.source = P1.source ∧
      P1.items = front ++ back ∧
      P2.items = front.map (fun p => { p with updatedAt := t2 }) ++ back ∧
      (∀ p ∈ front, p.updatedAt = t1) ∧
      (t2 = t1 → P2 = P1 ∧ papersJson P2 = papersJson P1 ∧
        indexJson P2 = indexJson P1) := by
  have h1 : (splitKnown (existing.map (fun p => p.url)) cache allItems).2 = [] := by
    by_contra hc
    have h := hrun1
    simp only [runCachedPipeline] at h
    rw [if_pos hc] at h
    exact Option.noConfusion h
  have h2 : (splitCached existing t1
      (splitKnown (existing.map (fun p => p.url)) cache allItems).1).2 = [] := by
    by_contra hc
    have h := hrun1
    simp only [runCachedPipeline] at h
    rw [if_neg (not_not_intro h1), if_pos hc] at h
    exact Option.noConfusion h
  set S1 := splitKnown (existing.map (fun p => p.url)) cache allItems with hS1def
  have henr1 : ∀ it ∈ S1.1, enrichedIn existing it :=
    splitCached_nil_enriched existing t1 S1.1 h2
  have hsub : S1.1.Sublist allItems := by
    rw [hS1def]
    exact splitKnown_fst_sublist _ cache allItems
  have hnd1 : (S1.1.map (fun i => i.url)).Nodup :=
    hnodup.sublist (hsub.map _)
  have hFurl : ∀ a ∈ S1.1,
      (refreshCached ((mapGet existing a.url).getD dummyPaper) a t1).url = a.url := by
    intro a ha
    rcases henr1 a ha with ⟨prev, hget, _, _⟩
    have hpu := mapGet_url existing a.url prev hget
    rw [hget]
    simpa [refreshCached] using hpu
  have hC1 : splitCached existing t1 S1.1 =
      (S1.1.map (fun it =>
        refreshCached ((mapGet existing it.url).getD dummyPaper) it t1), []) :=
    splitCached_all_enriched existing t1 S1.1 henr1
  have hP1 : P1 = ⟨t1, SOURCE_URL,
      (splitCached existing t1 S1.1).1 ++
      existing.filter (fun p =>
        !(S1.1.map (fun i => i.url)).contains
          (if p.url ≠ "" then p.url else p.id))⟩ := by
    have h := hrun1
    rw [runCachedPipeline_eq allItems existing cache t1 h1 h2] at h
    exact (congrArg Prod.fst (Option.some.inj h)).symm
  have hP1items : P1.items = S1.1.map (fun it =>
      refreshCached ((mapGet existing it.url).getD dummyPaper) it t1) ++
      existing.filter (fun p =>
        !(S1.1.map (fun i => i.url)).contains
          (if p.url ≠ "" then p.url else p.id)) := by
    rw [hP1, hC1]
  have hin_ex : ∀ a ∈ S1.1, a.url ∈ existing.map (fun p => p.url) := by
    intro a ha
    rcases henr1 a ha with ⟨prev, hget, _, _⟩
    have hmem := mapGet_mem existing a.url prev hget
    have hpu := mapGet_url existing a.url prev hget
    exact hpu ▸ List.mem_map_of_mem (fun p => p.url) hmem
  have hcongr : ∀ i ∈ allItems,
      ((existing.map (fun p => p.url)).contains i.url ||
        cache.kept.contains i.url) =
      ((P1.items.map (fun p => p.url)).contains i.url ||
        cache.kept.contains i.url) := by
    intro i hi
    rcases hk : cache.kept.contains i.url with _ | _
    · rw [Bool.or_false, Bool.or_false]
      rcases he : (existing.map (fun p => p.url)).contains i.url with _ | _
      · have hmemP : ¬(i.url ∈ P1.items.map (fun p => p.url)) := by
          intro hmem
          rcases List.mem_map.mp hmem with ⟨p, hp, hpu⟩
          rw [hP1items] at hp
          rcases List.mem_append.mp hp with hpf | hpb
          · rcases List.mem_map.mp hpf with ⟨a, ha, rfl⟩
            rw [hFurl a ha] at hpu
            have hm2 : i.url ∈ existing.map (fun p => p.url) :=
              hpu ▸ hin_ex a ha
            rw [← contains_true_iff, he] at hm2
            exact Bool.noConfusion hm2
          · have hpe : p ∈ existing := (List.mem_filter.mp hpb).1
            have hm2 : i.url ∈ existing.map (fun p => p.url) :=
              hpu ▸ List.mem_map_of_mem (fun p => p.url) hpe
            rw [← contains_true_iff, he] at hm2
            exact Bool.noConfusion hm2
        cases hres : (P1.items.map (fun p => p.url)).contains i.url with
        | false => exact he
        | true => exact absurd ((contains_true_iff _ _).mp hres) hmemP
      · have hmem : i ∈ S1.1 := by
          rw [hS1def]
          exact splitKnown_mem_fst _ cache allItems i hi
            (by rw [he, Bool.true_or])
        have hm2 : i.url ∈ P1.items.map (fun p => p.url) := by
          rw [hP1items]
          refine List.mem_map.mpr
            ⟨refreshCached ((mapGet existing i.url).getD dummyPaper) i t1,
             List.mem_append_left _ (List.mem_map_of_mem _ hmem), hFurl i hmem⟩
        rw [he, (contains_true_iff _ _).mpr hm2]
    · rw [Bool.or_true, Bool.or_true]
  have hS2 : splitKnown (P1.items.map (fun p => p.url)) cache allItems = S1 := by
    rw [hS1def]
    exact splitKnown_congr _ _ cache allItems hcongr
  have hmg : ∀ it ∈ S1.1, mapGet P1.items it.url =
      some (refreshCached ((mapGet existing it.url).getD dummyPaper) it t1) := by
    intro it hit
    rw [hP1items, mapGet_append]
    have hnone : mapGet (existing.filter (fun p =>
        !(S1.1.map (fun i => i.url)).contains
          (if p.url ≠ "" then p.url else p.id))) it.url = none := by
      rw [mapGet_eq_none_iff]
      intro p hp hpu
      have hpq : (!(S1.1.map (fun i => i.url)).contains
          (if p.url ≠ "" then p.url else p.id)) = true :=
        (List.mem_filter.mp hp).2
      have hne : p.url ≠ "" := by rw [hpu]; exact hurl it (hsub.subset hit)
      have hmemc : (S1.1.map (fun i => i.url)).contains it.url = true :=
        (contains_true_iff _ _).mpr (List.mem_map_of_mem _ hit)
      rw [if_pos hne, hpu, hmemc] at hpq
      exact absurd hpq (by decide)
    rw [hnone, Option.none_or]
    exact mapGet_map_of_nodup _ S1.1 hFurl hnd1 it hit
  have henr2 : ∀ it ∈ S1.1, enrichedIn P1.items it := by
    intro it hit
    rcases henr1 it hit with ⟨prev, hget, hs, hd⟩
    refine ⟨refreshCached ((mapGet existing it.url).getD dummyPaper) it t1,
      hmg it hit, ?_, ?_⟩
    · rw [hget]
      simpa [refreshCached] using hs
    · rw [hget]
      simpa [refreshCached] using hd
  have hsc2 : splitCached P1.items t2 S1.1 =
      (S1.1.map (fun it =>
        refreshCached ((mapGet P1.items it.url).getD dummyPaper) it t2), []) :=
    splitCached_all_enriched P1.items t2 S1.1 henr2
  have hmapeq : S1.1.map (fun it =>
      refreshCached ((mapGet P1.items it.url).getD dummyPaper) it t2) =
      (S1.1.map (fun it =>
        refreshCached ((mapGet existing it.url).getD dummyPaper) it t1)).map
        (fun p => { p with updatedAt := t2 }) := by
    rw [List.map_map]
    apply List.map_congr_left
    intro a ha
    show refreshCached ((mapGet P1.items a.url).getD dummyPaper) a t2 =
      { refreshCached ((mapGet existing a.url).getD dummyPaper) a t1 with
          updatedAt := t2 }
    rw [hmg a ha]
    simp only [Option.getD_some]
    exact refreshCached_refreshCached _ a t1 t2
  have hold2 : P1.items.filter (fun p =>
      !(S1.1.map (fun i => i.url)).contains
        (if p.url ≠ "" then p.url else p.id)) =
      existing.filter (fun p =>
        !(S1.1.map (fun i => i.url)).contains
          (if p.url ≠ "" then p.url else p.id)) := by
    rw [hP1items, List.filter_append]
    have hfront : (S1.1.map (fun it =>
        refreshCached ((mapGet existing it.url).getD dummyPaper) it t1)).filter
        (fun p => !(S1.1.map (fun i => i.url)).contains
          (if p.url ≠ "" then p.url else p.id)) = [] := by
      rw [List.filter_eq_nil_iff]
      intro p hp
      rcases List.mem_map.mp hp with ⟨a, ha, rfl⟩
      have hne : (refreshCached ((mapGet existing a.url).getD dummyPaper) a t1).url
          ≠ "" := by
        rw [hFurl a ha]
        exact hurl a (hsub.subset ha)
      have hc : (S1.1.map (fun i => i.url)).contains a.url = true :=
        (contains_true_iff _ _).mpr (List.mem_map_of_mem _ ha)
      show ¬((!(S1.1.map (fun i => i.url)).contains
        (if (refreshCached ((mapGet existing a.url).getD dummyPaper) a t1).url ≠ ""
         then (refreshCached ((mapGet existing a.url).getD dummyPaper) a t1).url
         else (refreshCached ((mapGet existing a.url).getD dummyPaper) a t1).id))
        = true)
      rw [if_pos hne, hFurl a ha, hc]
      decide
    have hback : (existing.filter (fun p =>
        !(S1.1.map (fun i => i.url)).contains
          (if p.url ≠ "" then p.url else p.id))).filter
        (fun p => !(S1.1.map (fun i => i.url)).contains
          (if p.url ≠ "" then p.url else p.id)) =
        existing.filter (fun p =>
          !(S1.1.map (fun i => i.url)).contains
            (if p.url ≠ "" then p.url else p.id)) := by
      apply List.filter_eq_self.mpr
      intro p hp
      exact (List.mem_filter.mp hp).2
    rw [hfront, hback, List.nil_append]
  have hS2n : (splitKnown (P1.items.map (fun p => p.url)) cache allItems).2 = [] := by
    rw [hS2]
    exact h1
  have hC2n : (splitCached P1.items t2
      (splitKnown (P1.items.map (fun p => p.url)) cache allItems).1).2 = [] := by
    rw [hS2, hsc2]
  have hrun2 := runCachedPipeline_eq allItems P1.items cache t2 hS2n hC2n
  simp only [hS2, hsc2] at hrun2
  rw [hmapeq, hold2] at hrun2
  refine ⟨⟨t2, SOURCE_URL,
      (S1.1.map (fun it =>
        refreshCached ((mapGet existing it.url).getD dummyPaper) it t1)).map
        (fun p => { p with updatedAt := t2 }) ++
      existing.filter (fun p =>
        !(S1.1.map (fun i => i.url)).contains
          (if p.url ≠ "" then p.url else p.id))⟩,
    S1.1.map (fun it =>
      refreshCached ((mapGet existing it.url).getD dummyPaper) it t1),
    existing.filter (fun p =>
      !(S1.1.map (fun i => i.url)).contains
        (if p.url ≠ "" then p.url else p.id)),
    hrun2, rfl, ?_, hP1items, rfl, ?_, ?_⟩
  · rw [hP1]
  · intro p hp
    rcases List.mem_map.mp hp with ⟨a, ha, rfl⟩
    rfl
  · intro ht
    subst ht
    have hmapid : (S1.1.map (fun it =>
        refreshCached ((mapGet existing it.url).getD dummyPaper) it t2)).map
        (fun p => { p with updatedAt := t2 }) =
        S1.1.map (fun it =>
          refreshCached ((mapGet existing it.url).getD dummyPaper) it t2) := by
      rw [List.map_map]
      apply List.map_congr_left
      intro a ha
      rfl
    have hPeq : (⟨t2, SOURCE_URL,
        (S1.1.map (fun it =>
          refreshCached ((mapGet existing it.url).getD dummyPaper) it t2)).map
          (fun p => { p with updatedAt := t2 }) ++
        existing.filter (fun p =>
          !(S1.1.map (fun i => i.url)).contains
            (if p.url ≠ "" then p.url else p.id))⟩ : Payload) = P1 := by
      rw [hmapid, hP1, hC1]
    exact ⟨hPeq, congrArg papersJson hPeq, congrArg indexJson hPeq⟩

/-- Witness for the amended C2 theorem: a one-item listing already
enriched in the store, rerun at clock reading T2 over the first run's
output. -/
theorem c2_second_run_identical_up_to_timestamps_witness :
    ∃ (P2 : Payload) (front back : List Paper),
      runCachedPipeline [⟨"u1", "T", "D", "A", "C"⟩]
        (Payload.mk "T1" SOURCE_URL
          [⟨"u1", "T", "u1", "1234.5678", "D", "A", "C", "s", "d", [], [], "T1"⟩]).items
        ⟨[], []⟩ "T2" = some (P2, (⟨[], []⟩ : Cache)) ∧
      P2.generatedAt = "T2" ∧
      P2.source = (Payload.mk "T1" SOURCE_URL
        [⟨"u1", "T", "u1", "1234.5678", "D", "A", "C", "s", "d", [], [], "T1"⟩]).source ∧
      (Payload.mk "T1" SOURCE_URL
        [⟨"u1", "T", "u1", "1234.5678", "D", "A", "C", "s", "d", [], [], "T1"⟩]).items
        = front ++ back ∧
      P2.items = front.map (fun p => { p with updatedAt := "T2" }) ++ back ∧
      (∀ p ∈ front, p.updatedAt = "T1") ∧
      ("T2" = "T1" →
        P2 = Payload.mk "T1" SOURCE_URL
          [⟨"u1", "T", "u1", "1234.5678", "D", "A", "C", "s", "d", [], [], "T1"⟩] ∧
        papersJson P2 = papersJson (Payload.mk "T1" SOURCE_URL
          [⟨"u1", "T", "u1", "1234.5678", "D", "A", "C", "s", "d", [], [], "T1"⟩]) ∧
        indexJson P2 = indexJson (Payload.mk "T1" SOURCE_URL
          [⟨"u1", "T", "u1", "1234.5678", "D", "A", "C", "s", "d", [], [], "T1"⟩])) :=
  c2_second_run_identical_up_to_timestamps
    [⟨"u1", "T", "D", "A", "C"⟩]
    [⟨"u1", "T", "u1", "1234.5678", "D", "A", "C", "s", "d", [], [], "T0"⟩]
    ⟨[], []⟩ "T1" "T2"
    (Payload.mk "T1" SOURCE_URL
      [⟨"u1", "T", "u1", "1234.5678", "D", "A", "C", "s", "d", [], [], "T1"⟩])
    (by decide) (by decide) rfl

end Pipeline

/-! ## The WeCom relay proxy (src/scripts/wecom_proxy.js)

The HTTP handler (lines 127-182): health check, POST /relay routing, the
token gate (`if (PROXY_TOKEN) ...`, with PROXY_TOKEN defaulting to the
empty string, line 44), JSON body parsing, field validation, the
access-token fetch, and the per-message send loop that records
`{ index: i, ok, error? }` outcomes and reports success / fail counts.
External effects are oracles: the parse outcome rides on the request, the
token fetch and each send are `Except` values; the handler returns the
response together with the list of (fallback-massaged) messages it
actually attempted to forward. -/

namespace WecomProxy

/-- A message object in the relay body (fields read by the handler and by
sendMessage, lines 91-104 and 159-164). `agentid` is a JS number or
absent; 0 and absent are both falsy. -/
structure WeMsg where
  msgtype : String
  agentid : Option Nat
  touser : String
  toparty : String
  totag : String
  content : String
deriving DecidableEq, Repr

/-- JS truthiness of the optional numeric agentid. -/
def truthyN : Option Nat → Bool
  | none => false
  | some n => n != 0

/-- The parsed request body: destructured fields of line 148. `messages`
is `none` when the field is missing or not an array. -/
structure RelayBody where
  corpid : String
  corpsecret : String
  messages : Option (List WeMsg)
  agentid : Option Nat
  touser : String
  toparty : String
  totag : String
deriving DecidableEq, Repr

/-- An incoming HTTP request: method, url, optional authorization header,
and the JSON.parse outcome of its body (`.error` = parse threw). -/
structure ProxyReq where
  method : String
  url : String
  authorization : Option String
  body : Except String RelayBody

/-- The response variants the handler can produce, with their status
codes: 200 health, 404, 401, 400, 500, and the 200 relay report. -/
inductive ProxyRes where
  | health
  | notFound
  | unauthorized
  | badRequest
  | serverError (msg : String)
  | relayed (success fail : Nat) (results : List (Nat × Bool × Option String))
deriving DecidableEq, Repr

/-- HTTP status code of each response variant (respond calls at lines
130, 135, 142, 151, 178, 180). -/
def statusOf : ProxyRes → Nat
  | .health => 200
  | .notFound => 404
  | .unauthorized => 401
  | .badRequest => 400
  | .serverError _ => 500
  | .relayed _ _ _ => 200

/-- The per-message fallback munging of lines 160-164: a falsy agentid is
replaced by the top-level one (when truthy), and when touser, toparty and
totag are all falsy, touser falls back to the top-level touser or to
"@all". -/
def massage (agentid : Option Nat) (touser : String) (m : WeMsg) : WeMsg :=
  let m1 := if (!truthyN m.agentid) && truthyN agentid then
    { m with agentid := agentid } else m
  if m1.touser = "" && m1.toparty = "" && m1.totag = "" then
    { m1 with touser := if touser != "" then touser else "@all" }
  else m1

/-- The try block of lines 146-181: parse outcome, field validation
(line 150), access-token fetch (line 155, a throw is caught by the outer
try and reported as 500), then the send loop: every message is attempted
in order, each outcome is recorded as (index, ok, error?), and the
response reports successCount and results.length - successCount. -/
def processBody (tokenRes : Except String String)
    (sendRes : Nat → Except String Unit) :
    Except String RelayBody → ProxyRes × List WeMsg
  | .error e => (.serverError e, [])
  | .ok body =>
    if body.corpid = "" ∨ body.corpsecret = "" ∨ body.messages = none then
      (.badRequest, [])
    else
      match tokenRes with
      | .error e => (.serverError e, [])
      | .ok _ =>
        let msgs := body.messages.getD []
        let results := (List.range msgs.length).map (fun i =>
          match sendRes i with
          | .ok _ => (i, true, (none : Option String))
          | .error e => (i, false, some e))
        let success := (results.filter (fun r => r.2.1)).length
        (.relayed success (results.length - success) results,
         msgs.map (massage body.agentid body.touser))

/-- JS String.prototype.startsWith: the first characters coincide with
the whole prefix argument. -/
def jsStarts (s pre : String) : Bool :=
  s.data.take pre.data.length == pre.data

/-- The request handler of lines 127-182. `token` is PROXY_TOKEN (the
environment value or "", line 44). The authorization header defaults to
"" when absent (line 140), and the gate runs only when the token is
truthy (non-empty, line 139). -/
def handleRequest (token : String) (tokenRes : Except String String)
    (sendRes : Nat → Except String Unit) (req : ProxyReq) :
    ProxyRes × List WeMsg :=
  if req.method = "GET" ∧ (req.url = "/" ∨ req.url = "/health") then
    (.health, [])
  else if ¬(req.method = "POST") ∨ ¬(jsStarts req.url "/relay" = true) then
    (.notFound, [])
  else if ¬(token = "") ∧ ¬(req.authorization.getD "" = "Bearer " ++ token) then
    (.unauthorized, [])
  else processBody tokenRes sendRes req.body

theorem handleRequest_post (token : String) (tokenRes : Except String String)
    (sendRes : Nat → Except String Unit) (req : ProxyReq)
    (hpost : req.method = "POST") (hurl : jsStarts req.url "/relay" = true)
    (hgate : ¬(¬(token = "") ∧
      ¬(req.authorization.getD "" = "Bearer " ++ token))) :
    handleRequest token tokenRes sendRes req =
      processBody tokenRes sendRes req.body := by
  have hnothealth : ¬(req.method = "GET" ∧
      (req.url = "/" ∨ req.url = "/health")) := by
    rw [hpost]
    rintro ⟨hc, -⟩
    exact absurd hc (by decide)
  have hroute : ¬(¬(req.method = "POST") ∨
      ¬(jsStarts req.url "/relay" = true)) := by
    rintro (hc | hc)
    · exact hc hpost
    · exact hc hurl
  simp only [handleRequest]
  rw [if_neg hnothealth, if_neg hroute, if_neg hgate]

theorem processBody_fst_ne_unauthorized (tokenRes : Except String String)
    (sendRes : Nat → Except String Unit) (b : Except String RelayBody) :
    ¬((processBody tokenRes sendRes b).1 = ProxyRes.unauthorized) := by
  rcases b with e | body
  · simp [processBody]
  · simp only [processBody]
    split
    · simp
    · rcases tokenRes with e | tk
      · simp
      · simp

/-- C10: for a POST request to /relay — (1) with an empty configured
proxy token the handler performs no authorization check at all: its
outcome is identical for every authorization header value and is never
401; (2) with a non-empty token, a request whose authorization header
(defaulted to "" when absent) is not exactly "Bearer " followed by the
token receives the 401 response and no message is forwarded; (3) for an
authorized request with a parseable body, truthy corpid and corpsecret, a
messages array, and a successful access-token fetch, the handler attempts
every message, and responds 200 with success + fail equal to the number
of messages and with results[i].index = i for every i. -/
theorem c10_relay_auth_and_results (token : String)
    (tokenRes : Except String String) (sendRes : Nat → Except String Unit)
    (req : ProxyReq) (hpost : req.method = "POST")
    (hurl : jsStarts req.url "/relay" = true) :
    ((token = "") →
      (∀ a1 a2 : Option String,
        handleRequest token tokenRes sendRes { req with authorization := a1 } =
        handleRequest token tokenRes sendRes { req with authorization := a2 }) ∧
      (handleRequest token tokenRes sendRes req).1 ≠ ProxyRes.unauthorized) ∧
    (¬(token = "") → ¬(req.authorization.getD "" = "Bearer " ++ token) →
      handleRequest token tokenRes sendRes req = (ProxyRes.unauthorized, []) ∧
      statusOf (handleRequest token tokenRes sendRes req).1 = 401) ∧
    (∀ (body : RelayBody) (msgs : List WeMsg) (tk : String),
      req.body = Except.ok body →
      ¬(body.corpid = "") → ¬(body.corpsecret = "") →
      body.messages = some msgs →
      tokenRes = Except.ok tk →
      (token = "" ∨ req.authorization.getD "" = "Bearer " ++ token) →
      ∃ (s f : Nat) (results : List (Nat × Bool × Option String)),
        handleRequest token tokenRes sendRes req =
          (ProxyRes.relayed s f results,
           msgs.map (massage body.agentid body.touser)) ∧
        s + f = msgs.length ∧
        results.length = msgs.length ∧
        ∀ (i : Nat) (h : i < results.length), (results.get ⟨i, h⟩).1 = i) := by
  refine ⟨?_, ?_, ?_⟩
  · intro htok
    subst htok
    constructor
    · intro a1 a2
      rw [handleRequest_post "" tokenRes sendRes
          { req with authorization := a1 } hpost hurl
          (by rintro ⟨hc, -⟩; exact hc rfl),
        handleRequest_post "" tokenRes sendRes
          { req with authorization := a2 } hpost hurl
          (by rintro ⟨hc, -⟩; exact hc rfl)]
    · rw [handleRequest_post "" tokenRes sendRes req hpost hurl
          (by rintro ⟨hc, -⟩; exact hc rfl)]
      exact processBody_fst_ne_unauthorized tokenRes sendRes req.body
  · intro htok hauth
    have hnothealth : ¬(req.method = "GET" ∧
        (req.url = "/" ∨ req.url = "/health")) := by
      rw [hpost]
      rintro ⟨hc, -⟩
      exact absurd hc (by decide)
    have hroute : ¬(¬(req.method = "POST") ∨
        ¬(jsStarts req.url "/relay" = true)) := by
      rintro (hc | hc)
      · exact hc hpost
      · exact hc hurl
    have hres : handleRequest token tokenRes sendRes req =
        (ProxyRes.unauthorized, []) := by
      simp only [handleRequest]
      rw [if_neg hnothealth, if_neg hroute, if_pos ⟨htok, hauth⟩]
    exact ⟨hres, by rw [hres]; rfl⟩
  · intro body msgs tk hbody hcorp hsec hmsgs htk hauth
    have hgate : ¬(¬(token = "") ∧
        ¬(req.authorization.getD "" = "Bearer " ++ token)) := by
      rcases hauth with h | h
      · rintro ⟨hc, -⟩; exact hc h
      · rintro ⟨-, hc⟩; exact hc h
    refine ⟨(((List.range msgs.length).map (fun i =>
        match sendRes i with
        | .ok _ => (i, true, (none : Option String))
        | .error e => (i, false, some e))).filter (fun r => r.2.1)).length,
      msgs.length - (((List.range msgs.length).map (fun i =>
        match sendRes i with
        | .ok _ => (i, true, (none : Option String))
        | .error e => (i, false, some e))).filter (fun r => r.2.1)).length,
      (List.range msgs.length).map (fun i =>
        match sendRes i with
        | .ok _ => (i, true, (none : Option String))
        | .error e => (i, false, some e)), ?_, ?_, ?_, ?_⟩
    · rw [handleRequest_post token tokenRes sendRes req hpost hurl hgate, hbody]
      simp only [processBody]
      rw [if_neg (by
          rintro (hc | hc | hc)
          · exact hcorp hc
          · exact hsec hc
          · rw [hmsgs] at hc; exact Option.noConfusion hc),
        htk]
      simp only [hmsgs, Option.getD_some, List.length_map, List.length_range]
    · have hle : (((List.range msgs.length).map (fun i =>
          match sendRes i with
          | .ok _ => (i, true, (none : Option String))
          | .error e => (i, false, some e))).filter (fun r => r.2.1)).length ≤
          msgs.length := by
        calc (((List.range msgs.length).map (fun i =>
            match sendRes i with
            | .ok _ => (i, true, (none : Option String))
            | .error e => (i, false, some e))).filter (fun r => r.2.1)).length
            ≤ ((List.range msgs.length).map (fun i =>
            match sendRes i with
            | .ok _ => (i, true, (none : Option String))
            | .error e => (i, false, some e))).length :=
              List.length_filter_le _ _
          _ = msgs.length := by rw [List.length_map, List.length_range]
      omega
    · rw [List.length_map, List.length_range]
    · intro i h
      rw [List.get_eq_getElem, List.getElem_map, List.getElem_range]
      rcases sendRes i with e | u
      · rfl
      · rfl

/-- Witness for C10: a three-message relay body behind the token "tok",
once with a wrong bearer (401, nothing attempted) and once with the
correct bearer and the second send failing (relayed report with
success + fail = 3 and indices 0,1,2). -/
theorem c10_relay_auth_and_results_witness :
    handleRequest "tok" (Except.ok "at")
      (fun i => if i = 1 then Except.error "boom" else Except.ok ())
      ⟨"POST", "/relay", some "Bearer nope", Except.ok ⟨"cid", "csec",
        some [⟨"text", none, "", "", "", "hi"⟩, ⟨"text", none, "", "", "", "hi"⟩,
          ⟨"text", none, "", "", "", "hi"⟩], none, "", "", ""⟩⟩ =
      (ProxyRes.unauthorized, []) ∧
    ∃ (s f : Nat) (results : List (Nat × Bool × Option String)),
      handleRequest "tok" (Except.ok "at")
        (fun i => if i = 1 then Except.error "boom" else Except.ok ())
        ⟨"POST", "/relay", some ("Bearer " ++ "tok"), Except.ok ⟨"cid", "csec",
          some [⟨"text", none, "", "", "", "hi"⟩, ⟨"text", none, "", "", "", "hi"⟩,
            ⟨"text", none, "", "", "", "hi"⟩], none, "", "", ""⟩⟩ =
        (ProxyRes.relayed s f results,
         ([⟨"text", none, "", "", "", "hi"⟩, ⟨"text", none, "", "", "", "hi"⟩,
           ⟨"text", none, "", "", "", "hi"⟩] : List WeMsg).map (massage none "")) ∧
      s + f = 3 ∧ results.length = 3 ∧
      ∀ (i : Nat) (h : i < results.length), (results.get ⟨i, h⟩).1 = i :=
  ⟨((c10_relay_auth_and_results "tok" (Except.ok "at")
      (fun i => if i = 1 then Except.error "boom" else Except.ok ())
      ⟨"POST", "/relay", some "Bearer nope", Except.ok ⟨"cid", "csec",
        some [⟨"text", none, "", "", "", "hi"⟩, ⟨"text", none, "", "", "", "hi"⟩,
          ⟨"text", none, "", "", "", "hi"⟩], none, "", "", ""⟩⟩
      rfl (by decide)).2.1 (by decide) (by decide)).1,
   (c10_relay_auth_and_results "tok" (Except.ok "at")
      (fun i => if i = 1 then Except.error "boom" else Except.ok ())
      ⟨"POST", "/relay", some ("Bearer " ++ "tok"), Except.ok ⟨"cid", "csec",
        some [⟨"text", none, "", "", "", "hi"⟩, ⟨"text", none, "", "", "", "hi"⟩,
          ⟨"text", none, "", "", "", "hi"⟩], none, "", "", ""⟩⟩
      rfl (by decide)).2.2 ⟨"cid", "csec",
        some [⟨"text", none, "", "", "", "hi"⟩, ⟨"text", none, "", "", "", "hi"⟩,
          ⟨"text", none, "", "", "", "hi"⟩], none, "", "", ""⟩
      [⟨"text", none, "", "", "", "hi"⟩, ⟨"text", none, "", "", "", "hi"⟩,
        ⟨"text", none, "", "", "", "hi"⟩] "at" rfl (by decide) (by decide)
      rfl rfl (Or.inr rfl)⟩

end WecomProxy

end ArxivDaily
